import Mathlib

/-
Verification of the GKR / sum-check research implementation: a shallow
embedding of the multilinear-extension algebra, the composite-expression
engine (shunting-yard reduction), the dense-polynomial utility, the
Fiat-Shamir transcripts and the sum-check prover/verifier, with theorems
settling the frozen claims about the specification.

Modelling conventions, used throughout:
- Rust `Vec<F>` becomes `List F`; machine indices become `ℕ`.
- An index expression that can panic (out-of-bounds read, `usize`
  underflow, `unwrap`) is modelled by `Option` when a claim's behaviour
  depends on the failure, and by `List.getD _ 0` where every call site
  reached by the claims satisfies the length invariant that makes the
  access in-bounds (each such place is noted at the definition).
- The hash primitive is a pluggable oracle (as in the source's `HashTrait`);
  a transcript state is the list of absorbed field elements, which is
  faithful because the source serialises every element as fixed-width
  big-endian bytes before absorbing, so the byte stream determines the
  element list and conversely.  `from_be_bytes_mod_order ∘ to_bytes_be`
  is the identity on canonical representatives and is folded away.
-/

namespace ZKGKR

/-! ## Operators and the shunting-yard machine (src/gkr/src/composite.rs) -/

/-- The operator enum `OP { ADD, MUL }`. -/
inductive OP where
  | ADD : OP
  | MUL : OP
deriving DecidableEq, Repr

/-- Source `getPrecedence`: ADD ↦ 0, MUL ↦ 1. -/
def getPrecedence : OP → ℕ
  | .ADD => 0
  | .MUL => 1

/-- The tagged union `OP_ELEMENT`: the source mixes operand tokens
(`Value`/`Poly`, always homogeneous at every call site) and operator tokens
in one output vector; we keep the operand type `α` generic. -/
inductive Token (α : Type) where
  | val : α → Token α
  | op : OP → Token α
deriving DecidableEq

/-- Source `get_value` (panics on an operator token). -/
def Token.getVal {α : Type} : Token α → Option α
  | .val a => some a
  | .op _ => none

/-- Source `get_op` (panics on an operand token). -/
def Token.getOp {α : Type} : Token α → Option OP
  | .val _ => none
  | .op o => some o

/-- Source `OP` dispatch inside the postfix evaluation:
`OP::ADD => left + right, OP::MUL => left * right`. -/
def applyOP {α : Type} [Add α] [Mul α] : OP → α → α → α
  | .ADD, a, b => a + b
  | .MUL, a, b => a * b

/-- State of the infix→postfix pass: `output`, the recorded
`operator_indexes`, and the operator stack (top first; the source keeps the
top at the end of its `Vec` and iterates it with `.rev()`). -/
structure SYState (α : Type) where
  out : List (Token α)
  idxs : List ℕ
  stack : List OP

/-- `output.push(values[i].clone())`. -/
def pushValue {α : Type} (st : SYState α) (v : α) : SYState α :=
  { st with out := st.out ++ [Token.val v] }

/-- One operator step of the infix→postfix pass, as the source writes it:
if the stack is nonempty and the incoming precedence is ≤ the top's, emit
every stacked operator of precedence ≥ the incoming one (scanning from the
top) and pop that many entries off the stack; then push the incoming
operator. -/
def handleOp {α : Type} (st : SYState α) (o : OP) : SYState α :=
  match st.stack with
  | [] => { st with stack := [o] }
  | top :: _ =>
    if getPrecedence o ≤ getPrecedence top then
      let matched := st.stack.filter (fun x => getPrecedence o ≤ getPrecedence x)
      { out := st.out ++ matched.map Token.op
        idxs := st.idxs ++ (List.range matched.length).map (st.out.length + ·)
        stack := o :: st.stack.drop matched.length }
    else { st with stack := o :: st.stack }

/-- One iteration of the source's infix→postfix loop: push `values[i]`,
then handle `ops[i]`. -/
def syStep {α : Type} (st : SYState α) (vo : α × OP) : SYState α :=
  handleOp (pushValue st vo.1) vo.2

/-- The infix→postfix pass of `shunting_yard_algo`: push each value, handle
its following operator (the source's loop body with `i < ops.len()`), then
flush the remaining stacked operators, recording output indexes. -/
def phase1 {α : Type} (values : List α) (ops : List OP) : SYState α :=
  let st := (values.zip ops).foldl syStep ⟨[], [], []⟩
  let st := (values.drop ops.length).foldl pushValue st
  { out := st.out ++ st.stack.map Token.op
    idxs := st.idxs ++ (List.range st.stack.length).map (st.out.length + ·)
    stack := [] }

/-- The postfix-evaluation pass of `shunting_yard_algo`: for the i-th
recorded operator index, reduce the triple ending at `idx - 2*i` in the
mutated output vector (`output[idx-2] = left op right; drain(idx-1..=idx)`).
Underflow of `operator_index - 2` (a `usize` panic in the source) and a
wrongly-tagged token (the source's `get_value`/`get_op` panics) yield
`none`. -/
def phase2 {α : Type} [Add α] [Mul α] :
    List (Token α) → List ℕ → ℕ → Option (List (Token α))
  | out, [], _ => some out
  | out, idx :: rest, shift =>
    let pos := idx - shift
    if pos < 2 then none
    else do
      let o ← (← out[pos]?).getOp
      let b ← (← out[pos - 1]?).getVal
      let a ← (← out[pos - 2]?).getVal
      let out' := out.set (pos - 2) (Token.val (applyOP o a b))
      phase2 (out'.take (pos - 1) ++ out'.drop (pos + 1)) rest (shift + 2)

/-- Source `shunting_yard_algo`: rejects (`Err`) a value list that is not
one longer than the operator list — with an empty value list the source's
`values.len()-1` underflows `usize`, also modelled as failure — then runs
the two passes and returns the first entry of the reduced output. -/
def shunting_yard_algo {α : Type} [Add α] [Mul α] (values : List α) (ops : List OP) :
    Option (Token α) :=
  if values.length = 0 then none
  else if values.length - 1 ≠ ops.length then none
  else do
    let st := phase1 values ops
    let out ← phase2 st.out st.idxs 0
    out.head?

/-! ## Multilinear polynomials (src/multilinear/src/multilinear.rs) -/

/-- `MultivariatePoly { coeffs, num_vars }`. -/
structure MultivariatePoly (F : Type) where
  coeffs : List F
  num_vars : ℕ
deriving DecidableEq, Repr

variable {F : Type}

/-- Source `MultivariatePoly::new`: panics unless `coeffs.len() == 2^num_vars`. -/
def MultivariatePoly.new (coeffs : List F) (num_vars : ℕ) :
    Option (MultivariatePoly F) :=
  if coeffs.length = 2 ^ num_vars then some ⟨coeffs, num_vars⟩ else none

/-- The index stepping of `partial_evaluate`'s loop: `j + 1`, skipping a
block of `2^power` when `j+1` is a multiple of `2^power`. -/
def nextJ (power j : ℕ) : ℕ :=
  if (j + 1) % 2 ^ power = 0 then j + 1 + 2 ^ power else j + 1

/-- The loop of `partial_evaluate`: `count` iterations starting at index
`j`, each pushing `y1 + val*(y2 - y1)` with `y1 = poly[j]`,
`y2 = poly[j | 1 << power]`.  The source's indexing is in bounds at every
call the claims reach (the length is `2^num_vars`); out-of-bounds reads are
modelled by the default 0. -/
def peLoop [Add F] [Mul F] [Sub F] [Zero F] (poly : List F) (power : ℕ) (val : F) :
    ℕ → ℕ → List F
  | 0, _ => []
  | count + 1, j =>
    (poly.getD j 0 + val * (poly.getD (j ||| 2 ^ power) 0 - poly.getD j 0))
      :: peLoop poly power val count (nextJ power j)

/-- Source `MultivariatePoly::partial_evaluate` (an associated function on
the raw value vector): fixes the variable whose index-bit position is
`num_vars - 1 - var_idx` (so `var_idx` counts from the most significant
bit) and halves the vector. -/
def MultivariatePoly.partial_evaluate [Add F] [Mul F] [Sub F] [Zero F]
    (poly : List F) (var_idx : ℕ) (val : F) : List F :=
  peLoop poly (poly.length.log2 - 1 - var_idx) val (poly.length / 2) 0

/-- The Lagrange-basis factor product of `evaluate`'s inner loop: bit `j` of
the running index selects `point[j]`, an unset bit selects `1 - point[j]`. -/
def basisProd [Mul F] [Sub F] [One F] [Zero F] (num_vars : ℕ) (point : List F)
    (i : ℕ) : F :=
  (List.range num_vars).foldl
    (fun acc j => acc * (if (i >>> j) % 2 = 1 then point.getD j 0 else 1 - point.getD j 0)) 1

/-- The summation body of `evaluate`, total on the stored data. -/
def MultivariatePoly.evaluateCore [Add F] [Mul F] [Sub F] [One F] [Zero F]
    (P : MultivariatePoly F) (point : List F) : F :=
  ((List.range P.coeffs.length).map
    (fun i => P.coeffs.getD i 0 * basisProd P.num_vars point i)).sum

/-- Source `MultivariatePoly::evaluate`: panics unless
`point.len() == num_vars`, then sums `coeffs[i] · Π_j (point[j] or 1-point[j])`
with bit `j` of `i` (least significant bit = variable 0) selecting the factor. -/
def MultivariatePoly.evaluate [Add F] [Mul F] [Sub F] [One F] [Zero F]
    (P : MultivariatePoly F) (point : List F) : Option F :=
  if point.length = P.num_vars then some (P.evaluateCore point) else none

/-- Source `MultivariatePoly::evaluate_partial`: repeatedly
`partial_evaluate` at variable index 0 (the most significant bit), one
point per step, then read entry 0 of what remains (`none` models the
source's panic on an empty vector). -/
def MultivariatePoly.evaluate_partial [Add F] [Mul F] [Sub F] [Zero F]
    (P : MultivariatePoly F) (points : List F) : Option F :=
  (points.foldl (fun acc p => MultivariatePoly.partial_evaluate acc 0 p) P.coeffs).head?

/-- The boolean point of index `i` built by `sum_over_boolean_hypercube`:
entry `j` is 1 exactly when bit `j` of `i` is set. -/
def boolPoint [One F] [Zero F] (num_vars i : ℕ) : List F :=
  (List.range num_vars).map (fun j => if (i >>> j) % 2 = 1 then 1 else 0)

/-- Source `MultivariatePoly::sum_over_boolean_hypercube`: sum `evaluate`
over all `2^num_vars` boolean points (each point has the right length, so
`evaluate`'s guard always passes and the core sum is taken directly). -/
def MultivariatePoly.sum_over_boolean_hypercube [Add F] [Mul F] [Sub F] [One F] [Zero F]
    (P : MultivariatePoly F) : F :=
  ((List.range (2 ^ P.num_vars)).map
    (fun i => P.evaluateCore (boolPoint P.num_vars i))).sum

/-- Trailing zero bits of a positive even length (`usize::trailing_zeros`
on the lengths reached here; the source's overflow on length 0 is kept out
by `get_blow_up_poly`'s guard below). -/
def trailingZeros (n : ℕ) : ℕ :=
  if h : n % 2 = 1 ∨ n = 0 then 0
  else trailingZeros (n / 2) + 1
decreasing_by
  exact Nat.div_lt_self (Nat.pos_of_ne_zero (fun hn => h (Or.inr hn))) one_lt_two

/-- Source `get_blow_up_poly`: panics on an odd length (and a zero length
would overflow `1 << (trailing_zeros + blows)` since `trailing_zeros(0)` is
the word size); otherwise a zero vector of length `2^(trailing_zeros + blows)`. -/
def get_blow_up_poly [Zero F] (P : MultivariatePoly F) (blows : ℕ) :
    Option (List F) :=
  if P.coeffs.length % 2 ≠ 0 ∨ P.coeffs.length = 0 then none
  else some (List.replicate (2 ^ (trailingZeros P.coeffs.length + blows)) 0)

/-- Source `MultivariatePoly::blow_up_right`: new entry `i` is
`coeffs[i >> blows]`, with `num_vars + blows` variables. -/
def MultivariatePoly.blow_up_right [Zero F] (P : MultivariatePoly F) (blows : ℕ) :
    Option (MultivariatePoly F) := do
  let zeros ← get_blow_up_poly P blows
  let new_coeffs := (List.range zeros.length).map (fun i => P.coeffs.getD (i >>> blows) 0)
  MultivariatePoly.new new_coeffs (P.num_vars + blows)

/-- Source `MultivariatePoly::blow_up_left`: new entry `i` is
`coeffs[i & (coeffs.len() - 1)]`, with `num_vars + blows` variables. -/
def MultivariatePoly.blow_up_left [Zero F] (P : MultivariatePoly F) (blows : ℕ) :
    Option (MultivariatePoly F) := do
  let zeros ← get_blow_up_poly P blows
  let mask := P.coeffs.length - 1
  let new_coeffs := (List.range zeros.length).map (fun i => P.coeffs.getD (i &&& mask) 0)
  MultivariatePoly.new new_coeffs (P.num_vars + blows)

/-- The `Add` impl for `MultivariatePoly`: entrywise sum.  The source
additionally panics when the two `num_vars` differ; every use reached by
the claims combines polynomials of one common length and `num_vars`. -/
instance [Add F] : Add (MultivariatePoly F) where
  add P Q := ⟨List.zipWith (· + ·) P.coeffs Q.coeffs, P.num_vars⟩

/-- The `Mul` impl for `MultivariatePoly`: entrywise product (same note as
for `Add`). -/
instance [Mul F] : Mul (MultivariatePoly F) where
  mul P Q := ⟨List.zipWith (· * ·) P.coeffs Q.coeffs, P.num_vars⟩

/-! ## Composite expressions (src/gkr/src/composite.rs) -/

/-- `Composite { polys, ops }`. -/
structure Composite (F : Type) where
  polys : List (MultivariatePoly F)
  ops : List OP
deriving DecidableEq

/-- Source `Composite::new`: panics unless the operator count is one less
than the operand count; each operand's variable count is the truncated
base-2 logarithm of its length and the operand must have exactly that
power-of-two length.  Equal lengths across operands are *not* required
here. -/
def Composite.new (hypercubes : List (List F)) (ops : List OP) :
    Option (Composite F) :=
  if ops.length + 1 ≠ hypercubes.length then none
  else do
    let polys ← hypercubes.mapM (fun cube =>
      if 2 ^ cube.length.log2 ≠ cube.length then none
      else MultivariatePoly.new cube cube.length.log2)
    some ⟨polys, ops⟩

/-- Source `Composite::partial_evaluate`: apply `partial_evaluate` at the
same variable index (with `value[index]`, in bounds at every reached call)
to every operand, each losing one variable through `MultivariatePoly::new`. -/
def Composite.partial_evaluate [Add F] [Mul F] [Sub F] [Zero F]
    (C : Composite F) (value : List F) (index : ℕ) : Option (Composite F) := do
  let polys ← C.polys.mapM (fun x =>
    MultivariatePoly.new
      (MultivariatePoly.partial_evaluate x.coeffs index (value.getD index 0))
      (x.num_vars - 1))
  some ⟨polys, C.ops⟩

/-- Source `Composite::evaluate`: panics when the assignment length differs
from `polys[0].num_vars` (or the operand list is empty), when any entry is
`None`, when the shunting-yard reduction errors, or when it does not end in
a scalar. -/
def Composite.evaluate [Add F] [Mul F] [Sub F] [Zero F]
    (C : Composite F) (values : List (Option F)) : Option F := do
  let p0 ← C.polys.head?
  if values.length ≠ p0.num_vars then none
  else do
    let evaluated ← values.mapM id
    let results ← C.polys.mapM (fun poly => poly.evaluate_partial evaluated)
    let r ← shunting_yard_algo results C.ops
    match r with
    | .val x => some x
    | .op _ => none

/-- Source `Composite::reduce`: panics when the operand list is empty or
the operands do not all share one length; otherwise the shunting-yard
reduction over whole polynomials (entrywise `Add`/`Mul`). -/
def Composite.reduce [Add F] [Mul F] (C : Composite F) :
    Option (MultivariatePoly F) := do
  let p0 ← C.polys.head?
  if C.polys.any (fun x => x.coeffs.length ≠ p0.coeffs.length) then none
  else do
    let r ← shunting_yard_algo C.polys C.ops
    match r with
    | .val x => some x
    | .op _ => none

/-! ## Dense univariate polynomials (src/prime_fields/prime_polynomail/src/lib.rs) -/

/-- The trailing-zero trim of `DensePolynomial::new`: pop the last
coefficient while more than one remains and the last is zero. -/
def trimTrailing [Zero F] [DecidableEq F] (l : List F) : List F :=
  if h : 1 < l.length ∧ l.getLast? = some 0 then trimTrailing l.dropLast else l
termination_by l.length
decreasing_by
  rcases h with ⟨h1, _⟩
  simpa [List.length_dropLast] using Nat.sub_lt (Nat.lt_of_lt_of_le one_pos h1.le) one_pos

/-- `DensePolynomial { coefficients }`. -/
structure DensePolynomial (F : Type) where
  coefficients : List F
deriving DecidableEq, Repr

/-- Source `DensePolynomial::new`: stores the coefficients with trailing
zeros trimmed (down to length one). -/
def DensePolynomial.new [Zero F] [DecidableEq F] (coefficients : List F) :
    DensePolynomial F :=
  ⟨trimTrailing coefficients⟩

/-- Source `DensePolynomial::evaluate`: `Σ_i coefficients[i] · x^i`. -/
def DensePolynomial.evaluate [Add F] [Mul F] [Zero F] [Pow F ℕ]
    (p : DensePolynomial F) (x : F) : F :=
  (p.coefficients.enum.map (fun ic => ic.2 * x ^ ic.1)).sum

/-- Source `compute_lagrange_denominator`: `Π_{j ≠ i} (x_i - x_j)`. -/
def compute_lagrange_denominator [Mul F] [Sub F] [One F]
    (x_i : F) (points : List (F × F)) (i : ℕ) : F :=
  ((points.enum.filter (fun jp => jp.1 ≠ i)).map (fun jp => x_i - jp.2.1)).prod

/-- Source `compute_linear_term`: multiply the running basis polynomial by
`(X - x_j)` in place, keeping its length. -/
def compute_linear_term [Mul F] [Sub F] [Zero F] (x_j : F) (current : List F) :
    List F :=
  (List.range current.length).map (fun k =>
    (if 0 < k then current.getD (k - 1) 0 else 0) - current.getD k 0 * x_j)

/-- Source `compute_lagrange_basis`: start from `[1, 0, …, 0]` of the point
count's length and fold `compute_linear_term` over every `x_j` with `j ≠ i`. -/
def compute_lagrange_basis [Mul F] [Sub F] [Zero F] [One F]
    (i : ℕ) (points : List (F × F)) : List F :=
  points.enum.foldl
    (fun basis jp => if i ≠ jp.1 then compute_linear_term jp.2.1 basis else basis)
    ((1 : F) :: List.replicate (points.length - 1) 0)

/-- Source `DensePolynomial::interpolate`: Lagrange interpolation;
`inverse().unwrap()` on a zero denominator is the failure case. -/
def DensePolynomial.interpolate [Field F] [DecidableEq F]
    (points : List (F × F)) : Option (DensePolynomial F) :=
  match points with
  | [] => some (DensePolynomial.new [0])
  | _ => do
    let terms ← points.enum.mapM (fun ip => do
      let d := compute_lagrange_denominator ip.2.1 points ip.1
      if d = 0 then none
      else
        some ((compute_lagrange_basis ip.1 points).map (fun b => b * (ip.2.2 * d⁻¹))))
    some (DensePolynomial.new
      (terms.foldl (fun acc t => List.zipWith (· + ·) acc t)
        (List.replicate points.length 0)))

/-! ## Fiat-Shamir transcript models -/

/-- Source `add_data_to_transcript` (src/sumcheck/src/sumcheck.rs): absorb
the big-endian bytes of the data elements, squeeze once, and re-reduce the
squeezed bytes (the identity on canonical representatives).  The transcript
state is the absorbed element list; the squeeze of the `transcript` crate's
`Transcript` finalizes a clone of the hash state, so the state after the
call is just the absorbed list. -/
def add_data_to_transcript (H : List F → F) (data : List F) (t : List F) :
    F × List F :=
  (H (t ++ data), t ++ data)

/-! ## Sum-check (src/sumcheck/src/sumcheck.rs) -/

/-- The assignment the prover builds for the `e2` row: the leading (current)
variable fixed to 2, the later variables enumerated over the boolean
hypercube by the bits of `index`, most significant first
(`index >> (rounds-i - x.0 - 1) & 1`). -/
def e2Point (F : Type) [Zero F] [One F] [NatCast F] (k index : ℕ) : List (Option F) :=
  (List.range k).map (fun m =>
    if m = 0 then some 2 else some (((index >>> (k - m - 1)) % 2 : ℕ) : F))

/-- One round of `generate_partial_proof`'s loop, at `rounds - i = k`
remaining variables: reduce, append the direct degree-2 row evaluations,
form the three partial sums, absorb `(e0+e1, e0, e1, e2)`, squeeze the
challenge, and partially evaluate the composite at it on variable 0.
Returns (round polynomial, `e0+e1`, challenge, next composite, transcript). -/
def genRound [Field F] (H : List F → F) (C : Composite F) (t : List F) (k : ℕ) :
    Option (List F × F × F × Composite F × List F) := do
  let reduced ← C.reduce
  let extra := reduced.coeffs.length / 2
  let extras ← (List.range extra).mapM (fun index => C.evaluate (e2Point F k index))
  let coeffsAll := reduced.coeffs ++ extras
  let round_poly := (List.range 3).map (fun j => ((coeffsAll.drop (j * extra)).take extra).sum)
  let s := round_poly.getD 0 0 + round_poly.getD 1 0
  let ct := add_data_to_transcript H (s :: round_poly) t
  let C' ← C.partial_evaluate [ct.1] 0
  some (round_poly, s, ct.1, C', ct.2)

/-- The round loop of `generate_partial_proof`, by remaining round count:
collects the round polynomials, the challenges and the running `e0+e1`
values (`partial_evals`). -/
def genRounds [Field F] (H : List F → F) :
    ℕ → Composite F → List F → Option (List (List F) × List F × List F × List F)
  | 0, _, t => some ([], [], [], t)
  | k + 1, C, t => do
    let (rp, s, ch, C', t') ← genRound H C t (k + 1)
    let (rps, chs, ss, tf) ← genRounds H k C' t'
    some (rp :: rps, ch :: chs, s :: ss, tf)

/-- Source `generate_partial_proof`: runs `polys[0].num_vars` rounds and
returns `partial_evals[0]` (a panic when there are no rounds), together
with the written round polynomials and challenges and the final transcript. -/
def generate_partial_proof [Field F] (H : List F → F) (C : Composite F)
    (t : List F) : Option (F × List (List F) × List F × List F) := do
  let p0 ← C.polys.head?
  let (rps, chs, ss, tf) ← genRounds H p0.num_vars C t
  let s0 ← ss.head?
  some (s0, rps, chs, tf)

/-- One round of `verify_partial_proof`: the source indexes
`coefficients[0]` and `coefficients[1]` (a panic on fewer than two
entries), panics — not returns — when `e0 + e1` misses the running sum,
absorbs the same tuple the prover absorbed, interpolates the enumerated
coefficient points and evaluates the interpolation at the challenge. -/
def verifyRound [Field F] [DecidableEq F] (H : List F → F) (sum : F)
    (rp : List F) (t : List F) : Option (F × F × List F) :=
  if rp.length < 2 then none
  else if sum ≠ rp.getD 0 0 + rp.getD 1 0 then none
  else do
    let ct := add_data_to_transcript H (sum :: rp) t
    let points := rp.enum.map (fun ic => ((ic.1 : F), ic.2))
    let uni ← DensePolynomial.interpolate points
    some (uni.evaluate ct.1, ct.1, ct.2)

/-- The round loop shared by the two sum-check verifiers: the final running
sum, the challenges, the final transcript. -/
def verifyRounds [Field F] [DecidableEq F] (H : List F → F) :
    List (List F) → F → List F → Option (F × List F × List F)
  | [], sum, t => some (sum, [], t)
  | rp :: rest, sum, t => do
    let (sum', ch, t') ← verifyRound H sum rp t
    let (fin, chs, tf) ← verifyRounds H rest sum' t'
    some (fin, ch :: chs, tf)

/-- Source `verify_partial_proof`: fold `verifyRound` over the round
polynomials from the claimed initial sum. -/
def verify_partial_proof [Field F] [DecidableEq F] (H : List F → F)
    (initial_sum : F) (round_polys : List (List F)) (t : List F) :
    Option (F × List F × List F) :=
  verifyRounds H round_polys initial_sum t

/-- Source `verify_partial_proof_2`: the same round logic as
`verify_partial_proof`, taking the raw coefficient rows (`Vec<Vec<F>>`);
its `e0+e1` check failure is likewise a panic, not a returned rejection. -/
def verify_partial_proof_2 [Field F] [DecidableEq F] (H : List F → F)
    (sum : F) (polys : List (List F)) (t : List F) :
    Option (F × List F × List F) :=
  verifyRounds H polys sum t

/-! ## The two transcript implementations

src/transcript/src/transcript.rs holds `Transcript<K: HashTrait, F>` whose
`squeeze(&self)` finalizes a *clone* of the hash state and therefore leaves
the transcript unchanged; src/sumcheck/src/transcript.rs holds a Keccak
transcript whose `sample_challenge` calls `finalize_reset` and feeds the
digest back into the fresh hash state.  Both are modelled over an abstract
byte-level hash oracle, exactly as generic as the source's `HashTrait`. -/

/-- A `HashTrait` instance: an accumulating state with `append` and a
side-effect-free `generate_hash` (the Keccak wrapper clones before
finalizing). -/
structure HashModel (S : Type) where
  append : S → List ℕ → S
  generate_hash : S → List ℕ

/-- The `transcript` crate's `Transcript`: just the hash state (the field
type only tags the output). -/
structure Transcript (S : Type) where
  hash_state : S

/-- Source `Transcript::absorb`: feed bytes into the running hash state. -/
def Transcript.absorb {S : Type} (K : HashModel S) (t : Transcript S)
    (data : List ℕ) : Transcript S :=
  ⟨K.append t.hash_state data⟩

/-- Source `Transcript::squeeze` (src/transcript): finalize the current
digest and reduce it to a field element with `from_be_bytes_mod_order`,
via an abstract reduction `toF`.  The method takes `&self`: the transcript
it returns alongside the element is the unchanged input, so no reseeding
happens. -/
def Transcript.squeeze {S : Type} (K : HashModel S) (toF : List ℕ → F)
    (t : Transcript S) : F × Transcript S :=
  (toF (K.generate_hash t.hash_state), t)

/-- The sumcheck crate's Keccak transcript, abstracted over the Keccak
permutation: its state is the byte list absorbed since the last reset. -/
structure Transcript2 where
  state : List ℕ

/-- Source `Transcript::append` (src/sumcheck/src/transcript.rs). -/
def Transcript2.append (t : Transcript2) (new_data : List ℕ) : Transcript2 :=
  ⟨t.state ++ new_data⟩

/-- Source `Transcript::sample_challenge`: `finalize_reset` produces the
digest of the absorbed bytes and resets the hasher, then the digest is fed
back into the fresh hasher (chaining); the digest is returned. -/
def Transcript2.sample_challenge (keccak : List ℕ → List ℕ) (t : Transcript2) :
    List ℕ × Transcript2 :=
  (keccak t.state, ⟨keccak t.state⟩)

/-- Source `Transcript::sample_field_element`: `sample_challenge` reduced
mod the field order via an abstract `toF`. -/
def Transcript2.sample_field_element (keccak : List ℕ → List ℕ)
    (toF : List ℕ → F) (t : Transcript2) : F × Transcript2 :=
  let ct := t.sample_challenge keccak
  (toF ct.1, ct.2)

/-! ## GKR fragments (src/gkr/src/gkr.rs) -/

/-- Source `next_pow_of_2`: despite its name, `ceil(log2 n)` with 0 mapped
to 1 (`toOne`). -/
def next_pow_of_2 (no : ℕ) : ℕ :=
  if Nat.clog 2 no = 0 then 1 else Nat.clog 2 no

/-- Modelled from the spec: the chaining squeeze of §4.3 ("finalize the
current hash digest, reduce it modulo the field order to a field element,
then reseed the hash state with that digest").  The `Transcript` that
implements `TranscriptTrait` — the one `gkr.rs` and `sumcheck.rs` link
against — is not among the repository's files (src/transcript holds an
older traitless version), so the gkr challenge derivations below are
settled against this spec-modelled transcript: state = absorbed elements,
squeeze = hash of the state, after which the state is reseeded to the
digest alone. -/
def squeezeChain (H : List F → F) (t : List F) : F × List F :=
  (H t, [H t])

/-- Iterated chaining squeezes: the drawn elements and the final state. -/
def squeezeChainN (H : List F → F) : ℕ → List F → List F × List F
  | 0, t => ([], t)
  | n + 1, t =>
    let vt := squeezeChain H t
    let rest := squeezeChainN H n vt.2
    (vt.1 :: rest.1, rest.2)

/-- Source `generate_proof`, lines 46–51: absorb the output-layer MLE's
values through `add_data_to_transcript` (whose squeeze result is
discarded), squeeze once more, and fill every entry of the
`next_pow_of_2`-long challenge vector with that one squeezed element. -/
def gkr_prover_first_challenges (H : List F → F) (w : List F) (t : List F) :
    List F :=
  let clen := next_pow_of_2 w.length
  let t1 := t ++ w
  let c1t := squeezeChain H t1
  let sqt := squeezeChain H c1t.2
  List.replicate clen sqt.1

/-- Source `verify_proof`, lines 128–132: absorb the output-layer MLE's
values through `add_data_to_transcript` (squeeze result discarded), then
draw each challenge entry with its own squeeze. -/
def gkr_verifier_first_challenges (H : List F → F) (w : List F) (t : List F) :
    List F :=
  let clen := next_pow_of_2 w.length
  let t1 := t ++ w
  let c1t := squeezeChain H t1
  (squeezeChainN H clen c1t.2).1

/-- Source `verify_proof`, lines 119–121: every round record of the proof
is passed through `DensePolynomial::new` before the layer's
`verify_partial_proof_2` call. -/
def gkr_round_records_to_polys [Zero F] [DecidableEq F]
    (poly_vec : List (List F)) : List (DensePolynomial F) :=
  poly_vec.map DensePolynomial.new

/-! ## Proof-layer definitions

Reference semantics the theorems relate the embedded algorithms to:
a precedence evaluator with optional additive/multiplicative accumulators
(the denotation of the shunting-yard machine's states), a postfix stack
machine, and the mathematical round polynomial of the sum-check. -/

/-- Apply an optional pending multiplicative accumulator. -/
def combineM {α : Type} [Mul α] : Option α → α → α
  | none, x => x
  | some m, x => m * x

/-- Apply an optional pending additive accumulator. -/
def combineA {α : Type} [Add α] : Option α → α → α
  | none, x => x
  | some a, x => a + x

/-- Precedence-respecting evaluation of `v₀ o₁ v₁ … o_k v_k`, written with
the leading values paired with their following operator and the final value
separate: MUL extends the multiplicative accumulator, ADD closes it into
the additive one. -/
def pcAcc {α : Type} [Add α] [Mul α] :
    Option α → Option α → List (α × OP) → α → α
  | A, M, [], w => combineA A (combineM M w)
  | A, M, (v, .MUL) :: rest, w => pcAcc A (some (combineM M v)) rest w
  | A, M, (v, .ADD) :: rest, w => pcAcc (some (combineA A (combineM M v))) none rest w

/-- The standard postfix stack machine (stack top first): the reference
point for the second shunting-yard pass. -/
def stackRun {α : Type} [Add α] [Mul α] :
    List α → List (Token α) → Option (List α)
  | st, [] => some st
  | st, .val v :: rest => stackRun (v :: st) rest
  | b :: a :: st, .op o :: rest => stackRun (applyOP o a b :: st) rest
  | _, .op _ :: _ => none

/-- Positions of the operator tokens of a token list, from offset `k`. -/
def opPositions {α : Type} : List (Token α) → ℕ → List ℕ
  | [], _ => []
  | .val _ :: rest, k => opPositions rest (k + 1)
  | .op _ :: rest, k => k :: opPositions rest (k + 1)

/-- No multiplication directly follows another (`b` records whether the
previous operator was MUL): with MUL binding tighter, this is exactly
"products of at most two operands at a time". -/
def chainOKb : Bool → List OP → Bool
  | _, [] => true
  | b, .MUL :: r => !b && chainOKb true r
  | _, .ADD :: r => chainOKb false r

/-- The operator list multiplies at most two operands at a time. -/
def noAdjacentMul (ops : List OP) : Prop := chainOKb false ops = true

/-- A function of `t` of the form `u + t·v`. -/
def AffineFun {F : Type} [Add F] [Mul F] (g : F → F) : Prop :=
  ∃ u v : F, ∀ t, g t = u + t * v

/-- A function of `t` of the form `a + t·b + t²·c`. -/
def QuadFun {F : Type} [Add F] [Mul F] (g : F → F) : Prop :=
  ∃ a b c : F, ∀ t, g t = a + t * b + t * t * c

/-- The fold at the heart of `evaluate_partial`: fix the leading (most
significant) variable to each point in turn. -/
def epList [Add F] [Mul F] [Sub F] [Zero F] (l : List F) (points : List F) :
    List F :=
  points.foldl (fun acc p => MultivariatePoly.partial_evaluate acc 0 p) l

/-- The scalar semantics of a composite at a fully-bound point: each
operand evaluated by the `evaluate_partial` fold, combined by precedence. -/
def compEval [Add F] [Mul F] [Sub F] [Zero F] (C : Composite F)
    (point : List F) : F :=
  let scs := C.polys.map (fun p => (epList p.coeffs point).headD 0)
  pcAcc none none (scs.dropLast.zip C.ops) (scs.getLastD 0)

/-- The big-endian boolean point of `index` on `k` variables, as field
elements (bit `k - m - 1` of `index` at position `m`). -/
def bitsBE (F : Type) [Zero F] [One F] [NatCast F] (k idx : ℕ) : List F :=
  (List.range k).map (fun m => (((idx >>> (k - m - 1)) % 2 : ℕ) : F))

/-- The hypercube sum of a composite's scalar semantics on `k` variables. -/
def hcSum [Add F] [Mul F] [Sub F] [Zero F] [One F] [NatCast F]
    (C : Composite F) (k : ℕ) : F :=
  ((List.range (2 ^ k)).map (fun idx => compEval C (bitsBE F k idx))).sum

/-- The true univariate restriction of round processing: current variable
`t`, later `k'` variables summed over the boolean hypercube. -/
def gFun [Add F] [Mul F] [Sub F] [Zero F] [One F] [NatCast F]
    (C : Composite F) (k' : ℕ) (t : F) : F :=
  ((List.range (2 ^ k')).map (fun idx => compEval C (t :: bitsBE F k' idx))).sum

/-- 5 is prime (for the concrete witnesses over `ZMod 5`). -/
instance : Fact (Nat.Prime 5) := ⟨by norm_num⟩

/-- The bn254 base-field modulus the sources instantiate `FqConfig` with. -/
def bn254Modulus : ℕ :=
  21888242871839275222246405745257275088696311157297823662689037894645226208583

/-- The element `partial_evaluate`'s loop pushes for pair base index `q` and
pair distance `2^p`: `y1 + val·(y2 - y1)`. -/
def peEntry [Add F] [Mul F] [Sub F] [Zero F] (l : List F) (p : ℕ) (v : F) (q : ℕ) : F :=
  l.getD q 0 + v * (l.getD (q + 2 ^ p) 0 - l.getD q 0)


end ZKGKR

namespace ZKGKR
variable {α : Type} [Add α] [Mul α]

lemma stackRun_append (st : List α) (l₁ l₂ : List (Token α)) :
    stackRun st (l₁ ++ l₂) = (stackRun st l₁).bind (fun st' => stackRun st' l₂) := by
  induction l₁ generalizing st with
  | nil => simp [stackRun]
  | cons tok rest ih =>
    cases tok with
    | val v => simp [stackRun, ih]
    | op o =>
      match st with
      | [] => simp [stackRun]
      | [a] => simp [stackRun]
      | b :: a :: st => simp [stackRun, ih]

lemma stackRun_vals (st : List α) (A : List α) :
    stackRun st (A.map Token.val) = some (A.reverse ++ st) := by
  induction A generalizing st with
  | nil => simp [stackRun]
  | cons a rest ih => simp [stackRun, ih]

lemma opPositions_append (l₁ l₂ : List (Token α)) (k : ℕ) :
    opPositions (l₁ ++ l₂) k = opPositions l₁ k ++ opPositions l₂ (k + l₁.length) := by
  induction l₁ generalizing k with
  | nil => simp [opPositions]
  | cons tok rest ih =>
    cases tok <;> simp [opPositions, ih, Nat.add_assoc, Nat.add_comm 1]

lemma opPositions_vals (A : List α) (k : ℕ) :
    opPositions (A.map Token.val) k = [] := by
  induction A generalizing k with
  | nil => rfl
  | cons a rest ih => simp [opPositions, ih]

lemma opPositions_shift (l : List (Token α)) (k : ℕ) :
    opPositions l k = (opPositions l 0).map (· + k) := by
  induction l generalizing k with
  | nil => simp [opPositions]
  | cons tok rest ih =>
    cases tok with
    | val v =>
      simp only [opPositions]
      rw [ih (k+1), ih 1, List.map_map]
      congr 1; funext x; simp; omega
    | op o =>
      simp only [opPositions]
      rw [ih (k+1), ih 1]
      simp [List.map_map]
      intro a _
      omega


def mStack {β : Type} (A M : Option β) : List OP :=
  (M.map (fun _ => OP.MUL)).toList ++ (A.map (fun _ => OP.ADD)).toList

def mVs (A M : Option α) : List α := M.toList ++ A.toList

def SYInv (st : SYState α) (A M : Option α) : Prop :=
  st.stack = mStack A M ∧ stackRun [] st.out = some (mVs A M) ∧
    st.idxs = opPositions st.out 0

lemma handleOp_MUL (st : SYState α) (A M : Option α) (v : α) (h : SYInv st A M) :
    SYInv (syStep st (v, OP.MUL)) A (some (combineM M v)) := by
  obtain ⟨hs, hr, hi⟩ := h
  rcases A with _ | a <;> rcases M with _ | m <;>
    refine ⟨?_, ?_, ?_⟩ <;>
    simp [syStep, handleOp, pushValue, hs, mStack, mVs, getPrecedence,
      stackRun_append, stackRun, hr, applyOP, combineM, hi,
      opPositions_append, opPositions, List.range_succ]

lemma handleOp_ADD (st : SYState α) (A M : Option α) (v : α) (h : SYInv st A M) :
    SYInv (syStep st (v, OP.ADD)) (some (combineA A (combineM M v))) none := by
  obtain ⟨hs, hr, hi⟩ := h
  rcases A with _ | a <;> rcases M with _ | m <;>
    refine ⟨?_, ?_, ?_⟩ <;>
    simp [syStep, handleOp, pushValue, hs, mStack, mVs, getPrecedence,
      stackRun_append, stackRun, hr, applyOP, combineM, combineA, hi,
      opPositions_append, opPositions, List.range_succ]

lemma syRun : ∀ (units : List (α × OP)) (st : SYState α) (A M : Option α) (w : α),
    SYInv st A M →
    stackRun [] ((pushValue (units.foldl syStep st) w).out ++
        (pushValue (units.foldl syStep st) w).stack.map Token.op) =
      some [pcAcc A M units w] ∧
    (pushValue (units.foldl syStep st) w).idxs ++
        (List.range (pushValue (units.foldl syStep st) w).stack.length).map
          ((pushValue (units.foldl syStep st) w).out.length + ·) =
      opPositions ((pushValue (units.foldl syStep st) w).out ++
        (pushValue (units.foldl syStep st) w).stack.map Token.op) 0 := by
  intro units
  induction units with
  | nil =>
    intro st A M w h
    obtain ⟨hs, hr, hi⟩ := h
    constructor
    · rcases A with _ | a <;> rcases M with _ | m <;>
        simp [pushValue, hs, mStack, mVs, pcAcc, combineA, combineM,
          stackRun_append, stackRun, hr, applyOP]
    · rcases A with _ | a <;> rcases M with _ | m <;>
        simp [pushValue, hs, hi, mStack, opPositions_append, opPositions, List.range_succ]
  | cons vo rest ih =>
    intro st A M w h
    obtain ⟨v, o⟩ := vo
    cases o with
    | MUL =>
      have hinv := handleOp_MUL st A M v h
      have := ih (syStep st (v, OP.MUL)) A (some (combineM M v)) w hinv
      simpa [List.foldl_cons, pcAcc] using this
    | ADD =>
      have hinv := handleOp_ADD st A M v h
      have := ih (syStep st (v, OP.ADD)) (some (combineA A (combineM M v))) none w hinv
      simpa [List.foldl_cons, pcAcc] using this

lemma opPositions_nil_vals (out : List (Token α)) (h : opPositions out 0 = []) :
    ∃ A : List α, out = A.map Token.val := by
  induction out with
  | nil => exact ⟨[], rfl⟩
  | cons tok rest ih =>
    cases tok with
    | val v =>
      simp only [opPositions] at h
      rw [opPositions_shift] at h
      simp at h
      obtain ⟨A, hA⟩ := ih h
      exact ⟨v :: A, by simp [hA]⟩
    | op o => simp [opPositions] at h

lemma opPositions_cons_decomp (out : List (Token α)) (pos : ℕ) (tail : List ℕ)
    (h : opPositions out 0 = pos :: tail) :
    ∃ (A : List α) (o : OP) (B : List (Token α)),
      out = A.map Token.val ++ Token.op o :: B ∧ A.length = pos ∧
      tail = opPositions B (pos + 1) := by
  induction out generalizing pos tail with
  | nil => simp [opPositions] at h
  | cons tok rest ih =>
    cases tok with
    | val v =>
      simp only [opPositions] at h
      rw [opPositions_shift] at h
      match hp : opPositions rest 0, pos with
      | [], _ => rw [hp] at h; simp at h
      | q :: qt, 0 =>
        rw [hp] at h; simp at h
      | q :: qt, pos' + 1 =>
        rw [hp] at h
        simp only [List.map_cons, List.cons.injEq] at h
        obtain ⟨h1, h2⟩ := h
        obtain ⟨A, o, B, hout, hlen, htail⟩ := ih q qt hp
        refine ⟨v :: A, o, B, by simp [hout], by simp [hlen]; omega, ?_⟩
        rw [← h2, htail, opPositions_shift, opPositions_shift B (pos' + 1 + 1)]
        simp only [List.map_map]
        apply List.map_congr_left
        intro x _
        simp
        omega
    | op o =>
      simp only [opPositions] at h
      injection h with h1 h2
      refine ⟨[], o, rest, by simp, by simp [h1], ?_⟩
      rw [← h2, ← h1]

lemma get_at0 (C : List (Token α)) (x : Token α) (rest : List (Token α)) :
    (C ++ x :: rest)[C.length]? = some x := by
  induction C with
  | nil => simp
  | cons c C ih => simpa using ih

lemma get_at1 (C : List (Token α)) (x y : Token α) (rest : List (Token α)) :
    (C ++ x :: y :: rest)[C.length + 1]? = some y := by
  induction C with
  | nil => simp
  | cons c C ih => simpa [Nat.add_right_comm] using ih

lemma get_at2 (C : List (Token α)) (x y z : Token α) (rest : List (Token α)) :
    (C ++ x :: y :: z :: rest)[C.length + 2]? = some z := by
  induction C with
  | nil => simp
  | cons c C ih => simpa [Nat.add_right_comm] using ih

lemma set_take_drop (C : List (Token α)) (x y z : Token α) (B : List (Token α))
    (c : Token α) :
    (((C ++ x :: y :: z :: B).set C.length c).take (C.length + 1)) ++
      (((C ++ x :: y :: z :: B).set C.length c).drop (C.length + 3)) = C ++ c :: B := by
  induction C with
  | nil => simp
  | cons d C ih => simpa [Nat.add_right_comm] using ih

@[simp] lemma getOp_op (o : OP) : (Token.op (α := α) o).getOp = some o := rfl

@[simp] lemma getVal_val (v : α) : (Token.val v).getVal = some v := rfl

lemma phase2_run : ∀ (nops : ℕ) (out : List (Token α)) (shift : ℕ) (r : α),
    (opPositions out 0).length = nops →
    stackRun [] out = some [r] →
    phase2 out ((opPositions out 0).map (· + shift)) shift = some [Token.val r] := by
  intro nops
  induction nops with
  | zero =>
    intro out shift r hn hr
    rw [List.length_eq_zero] at hn
    obtain ⟨A, rfl⟩ := opPositions_nil_vals out hn
    rw [stackRun_vals] at hr
    simp at hr
    have : A = [r] := by
      have := congrArg List.reverse hr
      simpa using this
    subst this
    simp [hn, phase2]
  | succ n ih =>
    intro out shift r hn hr
    match hp : opPositions out 0 with
    | [] => rw [hp] at hn; simp at hn
    | pos :: tail =>
      obtain ⟨A, o, B, rfl, hlen, htail⟩ := opPositions_cons_decomp out pos tail hp
      rw [stackRun_append, stackRun_vals] at hr
      simp only [Option.bind_eq_bind, Option.some_bind, List.append_nil] at hr
      match hA : A.reverse with
      | [] => rw [hA] at hr; simp [stackRun] at hr
      | [b] => rw [hA] at hr; simp [stackRun] at hr
      | b :: a :: Arev =>
        rw [hA] at hr
        have hAeq : A = Arev.reverse ++ [a, b] := by
          have := congrArg List.reverse hA
          simpa using this
        have hClen : (Arev.reverse.map (Token.val (α := α))).length = Arev.length := by simp
        have hposA : pos = Arev.length + 2 := by
          rw [← hlen, hAeq]; simp
        have hout : A.map Token.val ++ Token.op o :: B =
            Arev.reverse.map Token.val ++ Token.val a :: Token.val b :: Token.op o :: B := by
          rw [hAeq]; simp
        -- one phase2 step
        simp only [List.map_cons]
        rw [phase2]
        have hpos : pos + shift - shift = pos := by omega
        rw [hpos]
        have hngate : ¬ (pos < 2) := by omega
        simp only [if_neg hngate]
        rw [hout]
        have e0 : (Arev.reverse.map Token.val ++
            Token.val a :: Token.val b :: Token.op o :: B)[pos]? = some (Token.op o) := by
          rw [hposA, ← hClen]
          exact get_at2 _ _ _ _ _
        have e1 : (Arev.reverse.map Token.val ++
            Token.val a :: Token.val b :: Token.op o :: B)[pos - 1]? = some (Token.val b) := by
          have : pos - 1 = Arev.length + 1 := by omega
          rw [this, ← hClen]
          exact get_at1 _ _ _ _
        have e2 : (Arev.reverse.map Token.val ++
            Token.val a :: Token.val b :: Token.op o :: B)[pos - 2]? = some (Token.val a) := by
          have : pos - 2 = Arev.length := by omega
          rw [this, ← hClen]
          exact get_at0 _ _ _
        rw [e0, e1, e2]
        simp only [Option.bind_eq_bind, Option.some_bind, getOp_op, getVal_val]
        have hset : pos - 2 = (Arev.reverse.map (Token.val (α := α))).length := by
          rw [hClen]; omega
        have htd : (((Arev.reverse.map Token.val ++
              Token.val a :: Token.val b :: Token.op o :: B).set (pos - 2)
                (Token.val (applyOP o a b))).take (pos - 1)) ++
            (((Arev.reverse.map Token.val ++
              Token.val a :: Token.val b :: Token.op o :: B).set (pos - 2)
                (Token.val (applyOP o a b))).drop (pos + 1)) =
            Arev.reverse.map Token.val ++ Token.val (applyOP o a b) :: B := by
          rw [hset]
          have h1 : pos - 1 = (Arev.reverse.map (Token.val (α := α))).length + 1 := by
            rw [hClen]; omega
          have h3 : pos + 1 = (Arev.reverse.map (Token.val (α := α))).length + 3 := by
            rw [hClen]; omega
          rw [h1, h3]
          exact set_take_drop _ _ _ _ _ _
        rw [htd]
        -- apply the induction hypothesis to the reduced list
        have hnew : Arev.reverse.map Token.val ++ Token.val (applyOP o a b) :: B =
            (Arev.reverse ++ [applyOP o a b]).map Token.val ++ B := by simp
        have hrun : stackRun [] ((Arev.reverse ++ [applyOP o a b]).map Token.val ++ B) =
            some [r] := by
          rw [stackRun_append, stackRun_vals]
          simp only [Option.some_bind, List.append_nil, List.reverse_append,
            List.reverse_reverse]
          simpa [stackRun] using hr
        have hops : opPositions ((Arev.reverse ++ [applyOP o a b]).map Token.val ++ B) 0 =
            opPositions B (Arev.length + 1) := by
          rw [opPositions_append, opPositions_vals]
          simp
        have hlenB : ∀ k, (opPositions B k).length = (opPositions B 0).length := by
          intro k
          rw [opPositions_shift]
          simp
        have htn : tail.length = n := by
          have := congrArg List.length hp
          simp at this
          omega
        have hlen' : (opPositions ((Arev.reverse ++ [applyOP o a b]).map Token.val ++ B) 0).length = n := by
          rw [hops, hlenB, ← hlenB (pos + 1), ← htail, htn]
        have hidx : tail.map (· + shift) =
            (opPositions ((Arev.reverse ++ [applyOP o a b]).map Token.val ++ B) 0).map
              (· + (shift + 2)) := by
          rw [hops, htail, opPositions_shift, opPositions_shift B (Arev.length + 1)]
          simp only [List.map_map]
          apply List.map_congr_left
          intro x _
          simp
          omega
        rw [hnew, hidx]
        exact ih _ (shift + 2) r hlen' hrun

lemma sy_correct (vs : List α) (ops : List OP) (w : α) (h : vs.length = ops.length) :
    shunting_yard_algo (vs ++ [w]) ops =
      some (Token.val (pcAcc none none (vs.zip ops) w)) := by
  have hlen : (vs ++ [w]).length = ops.length + 1 := by simp [h]
  have hzip : ∀ (vs' : List α) (ops' : List OP), vs'.length = ops'.length →
      (vs' ++ [w]).zip ops' = vs'.zip ops' := by
    intro vs'
    induction vs' with
    | nil =>
      intro ops' h'
      match ops' with
      | [] => rfl
    | cons v vt ih =>
      intro ops' h'
      match ops' with
      | o :: ot =>
        simp only [List.cons_append, List.zip_cons_cons, List.cons.injEq, true_and]
        exact ih ot (by simpa using h')
  have hdrop : (vs ++ [w]).drop ops.length = [w] := by
    rw [← h]
    simp
  have hinv : SYInv (⟨[], [], []⟩ : SYState α) none none := by
    refine ⟨rfl, rfl, rfl⟩
  have hrun := syRun (vs.zip ops) ⟨[], [], []⟩ none none w hinv
  unfold shunting_yard_algo phase1
  rw [if_neg (by omega), if_neg (by omega)]
  dsimp only
  rw [hzip vs ops h, hdrop]
  simp only [List.foldl_cons, List.foldl_nil]
  obtain ⟨hsr, hidx⟩ := hrun
  rw [hidx]
  have := phase2_run
    ((opPositions ((pushValue ((vs.zip ops).foldl syStep ⟨[], [], []⟩) w).out ++
      (pushValue ((vs.zip ops).foldl syStep ⟨[], [], []⟩) w).stack.map Token.op) 0).length)
    _ 0 (pcAcc none none (vs.zip ops) w) rfl hsr
  simp only [Nat.add_zero, List.map_id'] at this
  rw [this]
  rfl

section PeLemmas
variable {F : Type} [Field F]

lemma lor_pow_eq_add : ∀ p n : ℕ, n.testBit p = false → n ||| 2 ^ p = n + 2 ^ p := by
  intro p
  induction p with
  | zero =>
    intro n h
    have h2 : n % 2 = 0 := by
      simpa [Nat.testBit, Nat.shiftRight] using h
    obtain ⟨m, rfl⟩ : ∃ m, n = 2 * m := ⟨n / 2, by omega⟩
    have hb : (2 * m) ||| 1 = 2 * m + 1 := by
      have := Nat.lor_bit false m true 0
      simpa [Nat.bit] using this
    simpa using hb
  | succ p ih =>
    intro n h
    rcases Nat.even_or_odd n with he | ho
    · obtain ⟨m, rfl⟩ : ∃ m, n = 2 * m := by
        rcases he with ⟨m, hm⟩; exact ⟨m, by omega⟩
      have hm : m ||| 2 ^ p = m + 2 ^ p := by
        refine ih m ?_
        have : (2 * m / 2).testBit p = false := by
          simpa [Nat.testBit_succ] using h
        simpa using this
      have := Nat.lor_bit false m false (2 ^ p)
      simp only [Nat.bit, Bool.or_self, cond_false] at this
      calc 2 * m ||| 2 ^ (p + 1) = 2 * (m ||| 2 ^ p) := by
            simpa [pow_succ, Nat.mul_comm] using this
        _ = 2 * m + 2 ^ (p + 1) := by rw [hm]; ring
    · obtain ⟨m, rfl⟩ : ∃ m, n = 2 * m + 1 := by
        rcases ho with ⟨m, hm⟩; exact ⟨m, by omega⟩
      have hm : m ||| 2 ^ p = m + 2 ^ p := by
        refine ih m ?_
        have : ((2 * m + 1) / 2).testBit p = false := by
          simpa [Nat.testBit_succ] using h
        have h2 : (2 * m + 1) / 2 = m := by omega
        rwa [h2] at this
      have := Nat.lor_bit true m false (2 ^ p)
      simp only [Nat.bit, Bool.or_false, cond_true, cond_false] at this
      calc 2 * m + 1 ||| 2 ^ (p + 1) = 2 * (m ||| 2 ^ p) + 1 := by
            simpa [pow_succ, Nat.mul_comm] using this
        _ = 2 * m + 1 + 2 ^ (p + 1) := by rw [hm]; ring

lemma peLoop_length (l : List F) (p : ℕ) (v : F) :
    ∀ (c j : ℕ), (peLoop l p v c j).length = c := by
  intro c
  induction c with
  | zero => intro j; rfl
  | succ c ih => intro j; simp [peLoop, ih]

lemma peLoop_window (l : List F) (p : ℕ) (v : F) :
    ∀ (c j : ℕ), j + c ≤ 2 ^ p →
      peLoop l p v c j = (List.range c).map (fun i =>
        l.getD (j + i) 0 + v * (l.getD ((j + i) ||| 2 ^ p) 0 - l.getD (j + i) 0)) := by
  intro c
  induction c with
  | zero => intro j _; rfl
  | succ c ih =>
    intro j hj
    rw [peLoop]
    rcases Nat.eq_zero_or_pos c with rfl | hc
    · show _ = List.map _ (List.range 1)
      rw [List.range_succ]
      simp [peLoop]
    · have hnext : nextJ p j = j + 1 := by
        unfold nextJ
        rw [if_neg]
        intro hmod
        have h1 : j + 1 ≤ 2 ^ p := by omega
        have h2 : 0 < j + 1 := by omega
        have : j + 1 = 2 ^ p := by
          rcases Nat.lt_or_ge (j + 1) (2 ^ p) with hlt | hge
          · exact absurd (Nat.mod_eq_of_lt hlt ▸ hmod) (by omega)
          · omega
        omega
      rw [hnext, ih (j + 1) (by omega), List.range_succ_eq_map]
      simp only [List.map_cons, List.map_map, Nat.add_zero]
      refine List.cons_eq_cons.mpr ⟨rfl, ?_⟩
      apply List.map_congr_left
      intro a _
      have hx : j + 1 + a = j + (a + 1) := by omega
      simp only [Function.comp_apply, Function.comp, hx]

lemma log2_two_pow (k : ℕ) : Nat.log2 (2 ^ k) = k := by
  rw [Nat.log2_eq_log_two]
  exact Nat.log_pow one_lt_two k

lemma pe0_map (l : List F) (k : ℕ) (hl : l.length = 2 ^ (k + 1)) (v : F) :
    MultivariatePoly.partial_evaluate l 0 v = (List.range (2 ^ k)).map (fun i =>
      l.getD i 0 + v * (l.getD (i + 2 ^ k) 0 - l.getD i 0)) := by
  unfold MultivariatePoly.partial_evaluate
  rw [hl, log2_two_pow]
  have hp : k + 1 - 1 - 0 = k := by omega
  rw [hp]
  have hdiv : 2 ^ (k + 1) / 2 = 2 ^ k := by
    rw [pow_succ]
    omega
  rw [hdiv, peLoop_window l k v (2 ^ k) 0 (by omega)]
  apply List.map_congr_left
  intro i hi
  simp only [List.mem_range] at hi
  rw [Nat.zero_add, lor_pow_eq_add k i (Nat.testBit_eq_false_of_lt hi)]

lemma pe0_length (l : List F) (v : F) :
    (MultivariatePoly.partial_evaluate l 0 v).length = l.length / 2 := by
  unfold MultivariatePoly.partial_evaluate
  rw [peLoop_length]

lemma epList_cons (l : List F) (x : F) (xs : List F) :
    epList l (x :: xs) = epList (MultivariatePoly.partial_evaluate l 0 x) xs := rfl

lemma shift_mod_two (idx s k : ℕ) (h : s < k) :
    ((idx % 2 ^ k) >>> s) % 2 = (idx >>> s) % 2 := by
  rw [Nat.shiftRight_eq_div_pow, Nat.shiftRight_eq_div_pow]
  have hk : 2 ^ k = 2 ^ s * 2 ^ (k - s) := by
    rw [← pow_add]
    congr 1
    omega
  conv_rhs => rw [← Nat.div_add_mod idx (2 ^ k)]
  obtain ⟨c, hc⟩ : ∃ c, 2 ^ (k - s) = 2 * c := ⟨2 ^ (k - s - 1), by
    rw [← pow_succ']
    congr 1
    omega⟩
  rw [hk, hc]
  have hpos : 0 < 2 ^ s := Nat.pos_pow_of_pos s (by omega)
  rw [Nat.mul_assoc, Nat.mul_add_div hpos, Nat.mul_assoc 2 c, Nat.mul_add_mod]

lemma bitsBE_succ (k idx : ℕ) :
    bitsBE F (k + 1) idx =
      (((idx >>> k) % 2 : ℕ) : F) :: bitsBE F k (idx % 2 ^ k) := by
  unfold bitsBE
  rw [List.range_succ_eq_map]
  simp only [List.map_cons, List.map_map, Nat.add_sub_cancel, Nat.sub_zero]
  refine List.cons_eq_cons.mpr ⟨rfl, ?_⟩
  apply List.map_congr_left
  intro m hm
  simp only [List.mem_range] at hm
  simp only [Function.comp_apply, Function.comp]
  congr 1
  have hs : k + 1 - Nat.succ m - 1 = k - m - 1 := by omega
  rw [hs]
  exact (shift_mod_two idx (k - m - 1) k (by omega)).symm

lemma getD_map_range (n i : ℕ) (f : ℕ → F) (h : i < n) :
    ((List.range n).map f).getD i 0 = f i := by
  rw [List.getD_eq_getElem?_getD, List.getElem?_map, List.getElem?_range h]
  rfl

lemma epList_bits : ∀ (k : ℕ) (l : List F) (idx : ℕ), l.length = 2 ^ k → idx < 2 ^ k →
    epList l (bitsBE F k idx) = [l.getD idx 0] := by
  intro k
  induction k with
  | zero =>
    intro l idx hl hidx
    interval_cases idx
    obtain ⟨a, rfl⟩ := List.length_eq_one.mp hl
    rfl
  | succ k ih =>
    intro l idx hl hidx
    rw [bitsBE_succ, epList_cons, pe0_map l k hl]
    have hbit : idx >>> k = 0 ∨ idx >>> k = 1 := by
      have h2 : idx >>> k < 2 := by
        rw [Nat.shiftRight_eq_div_pow]
        apply Nat.div_lt_of_lt_mul
        rw [pow_succ] at hidx
        omega
      generalize hx : idx >>> k = x at h2 ⊢
      omega
    have hmod : idx % 2 ^ k < 2 ^ k := Nat.mod_lt _ (Nat.pos_pow_of_pos k (by omega))
    rw [ih _ (idx % 2 ^ k) (by simp) hmod]
    rw [getD_map_range _ _ _ hmod]
    rcases hbit with h0 | h1
    · have hidxlt : idx < 2 ^ k := by
        have hd := Nat.div_add_mod idx (2 ^ k)
        have hmlt : idx % 2 ^ k < 2 ^ k := Nat.mod_lt idx (Nat.pos_pow_of_pos k (by omega))
        rw [Nat.shiftRight_eq_div_pow] at h0
        rw [h0] at hd
        omega
      have hmn : idx % 2 ^ k = idx := Nat.mod_eq_of_lt hidxlt
      rw [h0, hmn]
      norm_num
    · have hdecomp : idx % 2 ^ k + 2 ^ k = idx := by
        rw [Nat.shiftRight_eq_div_pow] at h1
        have hd := Nat.div_add_mod idx (2 ^ k)
        rw [h1] at hd
        omega
      rw [h1, hdecomp]
      norm_num

lemma zipWith_getD (f : F → F → F) : ∀ (x y : List F) (i : ℕ), i < x.length → i < y.length →
    (List.zipWith f x y).getD i 0 = f (x.getD i 0) (y.getD i 0) := by
  intro x
  induction x with
  | nil => intro y i hx hy; simp at hx
  | cons a xt ih =>
    intro y i hx hy
    match y, i with
    | b :: yt, 0 => rfl
    | b :: yt, i + 1 =>
      simp only [List.zipWith_cons_cons, List.getD_cons_succ]
      exact ih yt i (by simpa using hx) (by simpa using hy)

lemma zipWith_map_range (g : F → F → F) (f1 f2 : ℕ → F) (n : ℕ) :
    List.zipWith g ((List.range n).map f1) ((List.range n).map f2) =
      (List.range n).map (fun i => g (f1 i) (f2 i)) := by
  induction n with
  | zero => rfl
  | succ n ih =>
    rw [List.range_succ]
    simp only [List.map_append, List.map_cons, List.map_nil]
    rw [List.zipWith_append _ _ _ _ _ (by simp)]
    simp [ih]

lemma epList_length : ∀ (bs : List F) (l : List F),
    (epList l bs).length = l.length / 2 ^ bs.length := by
  intro bs
  induction bs with
  | nil => intro l; simp [epList]
  | cons b bt ih =>
    intro l
    rw [epList_cons, ih, pe0_length]
    rw [Nat.div_div_eq_div_mul]
    congr 1
    rw [List.length_cons, pow_succ]
    ring

lemma pe0_comb (k : ℕ) (l : List F) (hl : l.length = 2 ^ (k + 1)) (t : F) :
    MultivariatePoly.partial_evaluate l 0 t =
      List.zipWith (fun a b => (1 - t) * a + t * b)
        (MultivariatePoly.partial_evaluate l 0 0)
        (MultivariatePoly.partial_evaluate l 0 1) := by
  rw [pe0_map l k hl 0, pe0_map l k hl 1, pe0_map l k hl t, zipWith_map_range]
  apply List.map_congr_left
  intro i _
  ring

lemma epList_comb : ∀ (bs : List F) (k : ℕ) (x y : List F) (c d : F),
    x.length = 2 ^ k → y.length = 2 ^ k → bs.length = k →
    epList (List.zipWith (fun a b => c * a + d * b) x y) bs =
      List.zipWith (fun a b => c * a + d * b) (epList x bs) (epList y bs) := by
  intro bs
  induction bs with
  | nil =>
    intro k x y c d hx hy hbs
    simp [epList]
  | cons t bt ih =>
    intro k x y c d hx hy hbs
    match k, hbs with
    | m + 1, hbs =>
      have hzl : (List.zipWith (fun a b => c * a + d * b) x y).length = 2 ^ (m + 1) := by
        simp [hx, hy]
      rw [epList_cons, epList_cons, epList_cons]
      have hpe : MultivariatePoly.partial_evaluate
            (List.zipWith (fun a b => c * a + d * b) x y) 0 t =
          List.zipWith (fun a b => c * a + d * b)
            (MultivariatePoly.partial_evaluate x 0 t)
            (MultivariatePoly.partial_evaluate y 0 t) := by
        rw [pe0_map _ m hzl, pe0_map x m hx, pe0_map y m hy, zipWith_map_range]
        apply List.map_congr_left
        intro i hi
        simp only [List.mem_range] at hi
        have h1 : i < x.length := by omega
        have h2 : i < y.length := by omega
        have h3 : i + 2 ^ m < x.length := by
          rw [hx, pow_succ]
          omega
        have h4 : i + 2 ^ m < y.length := by
          rw [hy, pow_succ]
          omega
        rw [zipWith_getD _ _ _ _ h1 h2, zipWith_getD _ _ _ _ h3 h4]
        ring
      rw [hpe]
      exact ih m _ _ c d (by rw [pe0_length, hx, pow_succ]; omega)
        (by rw [pe0_length, hy, pow_succ]; omega) (by simpa using hbs)

lemma ep_head_affine (k : ℕ) (l : List F) (hl : l.length = 2 ^ (k + 1))
    (bs : List F) (hbs : bs.length = k) :
    AffineFun (fun t => (epList l (t :: bs)).getD 0 0) := by
  have h0 : (MultivariatePoly.partial_evaluate l 0 0).length = 2 ^ k := by
    rw [pe0_length, hl, pow_succ]
    omega
  have h1 : (MultivariatePoly.partial_evaluate l 0 1).length = 2 ^ k := by
    rw [pe0_length, hl, pow_succ]
    omega
  refine ⟨(epList (MultivariatePoly.partial_evaluate l 0 0) bs).getD 0 0,
    (epList (MultivariatePoly.partial_evaluate l 0 1) bs).getD 0 0 -
      (epList (MultivariatePoly.partial_evaluate l 0 0) bs).getD 0 0, ?_⟩
  intro t
  show (epList l (t :: bs)).getD 0 0 = _
  rw [epList_cons, pe0_comb k l hl t, epList_comb bs k _ _ _ _ h0 h1 hbs]
  have hpow : 0 < (2 : ℕ) ^ k := Nat.pos_pow_of_pos k (by omega)
  have hlen0 : 0 < (epList (MultivariatePoly.partial_evaluate l 0 0) bs).length := by
    rw [epList_length, h0, hbs]
    simp [Nat.div_self hpow]
  have hlen1 : 0 < (epList (MultivariatePoly.partial_evaluate l 0 1) bs).length := by
    rw [epList_length, h1, hbs]
    simp [Nat.div_self hpow]
  rw [zipWith_getD _ _ _ _ hlen0 hlen1]
  ring

end PeLemmas

section QuadLemmas
variable {F : Type} [Field F]

lemma headD_getD (l : List F) (d : F) : l.headD d = l.getD 0 d := by
  cases l <;> rfl

lemma affine_quad {g : F → F} (h : AffineFun g) : QuadFun g := by
  obtain ⟨u, v, huv⟩ := h
  exact ⟨u, v, 0, fun t => by rw [huv t]; ring⟩

lemma quad_add {f g : F → F} (hf : QuadFun f) (hg : QuadFun g) :
    QuadFun (fun t => f t + g t) := by
  obtain ⟨a, b, c, hf⟩ := hf
  obtain ⟨a', b', c', hg⟩ := hg
  exact ⟨a + a', b + b', c + c', fun t => by show f t + g t = _; rw [hf t, hg t]; ring⟩

lemma affine_mul {f g : F → F} (hf : AffineFun f) (hg : AffineFun g) :
    QuadFun (fun t => f t * g t) := by
  obtain ⟨u, v, hf⟩ := hf
  obtain ⟨u', v', hg⟩ := hg
  exact ⟨u * u', u * v' + u' * v, v * v', fun t => by show f t * g t = _; rw [hf t, hg t]; ring⟩

lemma quad_const (c : F) : QuadFun (fun _ => c) :=
  ⟨c, 0, 0, fun t => by ring⟩

lemma pcAcc_quad : ∀ (us : List ((F → F) × OP)) (A M : Option (F → F)) (w : F → F),
    (∀ u ∈ us, AffineFun u.1) → AffineFun w →
    (∀ a ∈ A, QuadFun a) → (∀ m ∈ M, AffineFun m) →
    chainOKb M.isSome (us.map Prod.snd) = true →
    QuadFun (fun t => pcAcc (A.map (fun f => f t)) (M.map (fun f => f t))
      ((us.map (fun u => (u.1 t, u.2))) : List (F × OP)) (w t)) := by
  intro us
  induction us with
  | nil =>
    intro A M w _ hw hA hM _
    rcases A with _ | a <;> rcases M with _ | m
    · exact affine_quad hw
    · simpa [pcAcc, combineA, combineM] using
        affine_mul (hM m rfl) hw
    · simpa [pcAcc, combineA, combineM] using
        quad_add (hA a rfl) (affine_quad hw)
    · simpa [pcAcc, combineA, combineM] using
        quad_add (hA a rfl) (affine_mul (hM m rfl) hw)
  | cons u us ih =>
    intro A M w hus hw hA hM hchain
    obtain ⟨v, o⟩ := u
    have hv : AffineFun v := hus (v, o) (by simp)
    have hus' : ∀ u ∈ us, AffineFun u.1 := fun u hu => hus u (by simp [hu])
    cases o with
    | MUL =>
      have hM0 : M = none := by
        cases M with
        | none => rfl
        | some m => simp [chainOKb] at hchain
      subst hM0
      have hchain' : chainOKb true (us.map Prod.snd) = true := by
        simpa [chainOKb] using hchain
      have := ih A (some v) w hus' hw hA (by simpa using hv) (by simpa using hchain')
      simpa [pcAcc, combineM] using this
    | ADD =>
      have hA' : QuadFun (fun t => combineA (A.map (fun f => f t))
          (combineM (M.map (fun f => f t)) (v t))) := by
        rcases A with _ | a <;> rcases M with _ | m
        · simpa [combineA, combineM] using affine_quad hv
        · simpa [combineA, combineM] using affine_mul (hM m rfl) hv
        · simpa [combineA, combineM] using quad_add (hA a rfl) (affine_quad hv)
        · simpa [combineA, combineM] using
            quad_add (hA a rfl) (affine_mul (hM m rfl) hv)
      have hchain' : chainOKb false (us.map Prod.snd) = true := by
        cases M <;> simpa [chainOKb] using hchain
      have := ih (some (fun t => combineA (A.map (fun f => f t))
          (combineM (M.map (fun f => f t)) (v t)))) none w hus' hw
        (by simpa using hA') (by simp) (by simpa using hchain')
      simpa [pcAcc] using this

lemma quad_range_sum (n : ℕ) (f : ℕ → F → F) (hf : ∀ i < n, QuadFun (f i)) :
    QuadFun (fun t => ((List.range n).map (fun i => f i t)).sum) := by
  induction n with
  | zero => simpa using quad_const 0
  | succ n ih =>
    have h1 := ih (fun i hi => hf i (by omega))
    have h2 := hf n (by omega)
    have := quad_add h1 h2
    simpa [List.range_succ] using this

end QuadLemmas

section CompositeLemmas
variable {F : Type} [Field F]

lemma mapM_map_some (point : List F) : (point.map some).mapM (id : Option F → Option F) = some point := by
  induction point with
  | nil => rfl
  | cons x xs ih =>
    rw [List.map_cons, List.mapM_cons, ih]
    rfl

lemma mapM_of_forall_some {β γ : Type} (l : List β) (f : β → Option γ) (g : β → γ)
    (h : ∀ x ∈ l, f x = some (g x)) : l.mapM f = some (l.map g) := by
  induction l with
  | nil => rfl
  | cons x xs ih =>
    rw [List.mapM_cons, h x (by simp)]
    rw [ih (fun y hy => h y (by simp [hy]))]
    rfl

lemma getLastD_map_getD {β : Type} (l : List β) (g : β → F) (hl : l ≠ []) :
    ∀ d : F, ((l.map g).getLastD d) = g (l.getLast hl) := by
  induction l with
  | nil => simp at hl
  | cons x xs ih =>
    intro d
    cases xs with
    | nil => rfl
    | cons y ys =>
      rw [List.map_cons, List.getLastD_cons, ih (by simp) (g x)]
      simp [List.getLast_cons]

lemma zip_map_left' {β γ : Type} (l : List β) (g : β → γ) (ops : List OP) :
    (l.map g).zip ops = (l.zip ops).map (fun u => (g u.1, u.2)) := by
  induction l generalizing ops with
  | nil => simp
  | cons x xs ih =>
    cases ops with
    | nil => simp
    | cons o ot => simp [ih]

lemma dropLast_map {β γ : Type} (l : List β) (g : β → γ) :
    (l.map g).dropLast = l.dropLast.map g :=
  (List.map_dropLast g l).symm

/-- The fully-applied scalar semantics of `Composite::evaluate`. -/
lemma evaluate_eq_compEval (C : Composite F) (n : ℕ) (point : List F)
    (hne : C.polys ≠ [])
    (hlen : C.polys.length = C.ops.length + 1)
    (hcoeffs : ∀ p ∈ C.polys, p.coeffs.length = 2 ^ n)
    (hvars : ∀ p ∈ C.polys, p.num_vars = n)
    (hpt : point.length = n) :
    C.evaluate (point.map some) = some (compEval C point) := by
  obtain ⟨p, ps, hps⟩ := List.exists_cons_of_ne_nil hne
  unfold Composite.evaluate
  rw [hps]
  simp only [List.head?_cons, Option.bind_eq_bind, Option.some_bind]
  have hc : (List.map some point).length = p.num_vars := by
    rw [List.length_map, hpt, hvars p (by rw [hps]; exact List.mem_cons_self p ps)]
  rw [if_neg (fun hcon => hcon hc)]
  rw [mapM_map_some]
  simp only [Option.some_bind]
  have heval : ∀ q ∈ C.polys, q.evaluate_partial point =
      some ((epList q.coeffs point).getD 0 0) := by
    intro q hq
    have hql : (epList q.coeffs point).length = 1 := by
      rw [epList_length, hcoeffs q hq, hpt]
      exact Nat.div_self (Nat.pos_pow_of_pos n (by omega))
    unfold MultivariatePoly.evaluate_partial
    obtain ⟨x, hx⟩ := List.length_eq_one.mp hql
    show (epList q.coeffs point).head? = _
    rw [hx]
    rfl
  rw [hps] at heval
  rw [mapM_of_forall_some _ _ (fun q => (epList q.coeffs point).getD 0 0)
    (by intro q hq; exact heval q hq)]
  simp only [Option.some_bind]
  -- shunting yard on the scalar list
  have hscs : ((p :: ps).map (fun q => (epList q.coeffs point).getD 0 0)).length
      = C.ops.length + 1 := by
    rw [List.length_map]
    rw [hps] at hlen
    simpa using hlen
  set scs := (p :: ps).map (fun q => (epList q.coeffs point).getD 0 0) with hscs_def
  have hsne : scs ≠ [] := by simp [hscs_def]
  have hdecomp : scs = scs.dropLast ++ [scs.getLast hsne] :=
    (List.dropLast_append_getLast hsne).symm
  have hdllen : scs.dropLast.length = C.ops.length := by
    rw [List.length_dropLast, hscs]
    omega
  rw [hdecomp, sy_correct _ _ _ hdllen]
  simp only [Option.some_bind]
  simp only [compEval]
  have hmapeq : C.polys.map (fun q => (epList q.coeffs point).headD 0) = scs := by
    rw [hps, hscs_def]
    apply List.map_congr_left
    intro q _
    rw [headD_getD]
  rw [hmapeq]
  have hdl : (scs.dropLast ++ [scs.getLast hsne]).dropLast = scs.dropLast := by
    rw [← hdecomp]
  have hgl : scs.getLastD 0 = scs.getLast hsne := by
    rw [List.getLastD_eq_getLast?, List.getLast?_eq_getLast _ hsne]
    rfl
  rw [hgl]

end CompositeLemmas

section ReduceLemmas
variable {F : Type} [Field F]

lemma polyAdd_coeffs (P Q : MultivariatePoly F) :
    (P + Q).coeffs = List.zipWith (· + ·) P.coeffs Q.coeffs := rfl

lemma polyMul_coeffs (P Q : MultivariatePoly F) :
    (P * Q).coeffs = List.zipWith (· * ·) P.coeffs Q.coeffs := rfl

lemma zipWith_length_eq {f : F → F → F} {x y : List F} {L : ℕ}
    (hx : x.length = L) (hy : y.length = L) : (List.zipWith f x y).length = L := by
  rw [List.length_zipWith, hx, hy, Nat.min_self]

lemma list_ext_getD (l₁ l₂ : List F) (h : l₁.length = l₂.length)
    (hp : ∀ i < l₁.length, l₁.getD i 0 = l₂.getD i 0) : l₁ = l₂ := by
  apply List.ext_getElem h
  intro i h1 h2
  have := hp i h1
  rwa [List.getD_eq_getElem l₁ 0 h1, List.getD_eq_getElem l₂ 0 h2] at this

lemma pcAcc_poly (units : List (MultivariatePoly F × OP)) :
    ∀ (A M : Option (MultivariatePoly F)) (w : MultivariatePoly F) (L : ℕ),
    (∀ u ∈ units, u.1.coeffs.length = L) → w.coeffs.length = L →
    (∀ a ∈ A, a.coeffs.length = L) → (∀ m ∈ M, m.coeffs.length = L) →
    (pcAcc A M units w).coeffs.length = L ∧
    ∀ idx, idx < L → (pcAcc A M units w).coeffs.getD idx 0 =
      pcAcc (A.map (fun P => P.coeffs.getD idx 0)) (M.map (fun P => P.coeffs.getD idx 0))
        (units.map (fun u => (u.1.coeffs.getD idx 0, u.2))) (w.coeffs.getD idx 0) := by
  induction units with
  | nil =>
    intro A M w L hu hw hA hM
    rcases A with _ | a <;> rcases M with _ | m <;>
      simp only [pcAcc, combineA, combineM, Option.map_none', Option.map_some',
        List.map_nil]
    · exact ⟨hw, fun idx _ => by trivial⟩
    · have hm := hM m rfl
      refine ⟨zipWith_length_eq hm hw, fun idx hidx => ?_⟩
      rw [polyMul_coeffs, zipWith_getD _ _ _ _ (by omega) (by omega)]
    · have ha := hA a rfl
      refine ⟨zipWith_length_eq ha hw, fun idx hidx => ?_⟩
      rw [polyAdd_coeffs, zipWith_getD _ _ _ _ (by omega) (by omega)]
    · have ha := hA a rfl
      have hm := hM m rfl
      have hmw : (m * w).coeffs.length = L := zipWith_length_eq hm hw
      refine ⟨zipWith_length_eq ha hmw, fun idx hidx => ?_⟩
      rw [polyAdd_coeffs, zipWith_getD _ _ _ _ (by omega) (by omega),
        polyMul_coeffs, zipWith_getD _ _ _ _ (by omega) (by omega)]
  | cons u us ih =>
    intro A M w L hu hw hA hM
    obtain ⟨v, o⟩ := u
    have hv : v.coeffs.length = L := hu (v, o) (by simp)
    have hus : ∀ x ∈ us, x.1.coeffs.length = L := fun x hx => hu x (by simp [hx])
    cases o with
    | MUL =>
      have hMv : ∀ m ∈ some (combineM M v), m.coeffs.length = L := by
        intro m hm
        simp at hm
        subst hm
        cases M with
        | none => exact hv
        | some m' => exact zipWith_length_eq (hM m' rfl) hv
      have := ih A (some (combineM M v)) w L hus hw hA hMv
      refine ⟨this.1, fun idx hidx => ?_⟩
      rw [show pcAcc A M ((v, OP.MUL) :: us) w = pcAcc A (some (combineM M v)) us w from rfl]
      rw [this.2 idx hidx]
      have hcm : (combineM M v).coeffs.getD idx 0 =
          combineM (M.map (fun P => P.coeffs.getD idx 0)) (v.coeffs.getD idx 0) := by
        cases M with
        | none => rfl
        | some m' =>
          simp only [combineM, Option.map_some']
          rw [polyMul_coeffs, zipWith_getD _ _ _ _ (by rw [hM m' rfl]; omega) (by omega)]
      simp only [Option.map_some']
      rw [hcm]
      rfl
    | ADD =>
      have hAv : ∀ a ∈ some (combineA A (combineM M v)), a.coeffs.length = L := by
        intro a ha
        simp at ha
        subst ha
        have hmv : (combineM M v).coeffs.length = L := by
          cases M with
          | none => exact hv
          | some m' => exact zipWith_length_eq (hM m' rfl) hv
        cases A with
        | none => exact hmv
        | some a' => exact zipWith_length_eq (hA a' rfl) hmv
      have := ih (some (combineA A (combineM M v))) none w L hus hw hAv (by simp)
      refine ⟨this.1, fun idx hidx => ?_⟩
      rw [show pcAcc A M ((v, OP.ADD) :: us) w =
        pcAcc (some (combineA A (combineM M v))) none us w from rfl]
      rw [this.2 idx hidx]
      have hmv : (combineM M v).coeffs.length = L := by
        cases M with
        | none => exact hv
        | some m' => exact zipWith_length_eq (hM m' rfl) hv
      have hca : (combineA A (combineM M v)).coeffs.getD idx 0 =
          combineA (A.map (fun P => P.coeffs.getD idx 0))
            (combineM (M.map (fun P => P.coeffs.getD idx 0)) (v.coeffs.getD idx 0)) := by
        have hcm : (combineM M v).coeffs.getD idx 0 =
            combineM (M.map (fun P => P.coeffs.getD idx 0)) (v.coeffs.getD idx 0) := by
          cases M with
          | none => rfl
          | some m' =>
            simp only [combineM, Option.map_some']
            rw [polyMul_coeffs, zipWith_getD _ _ _ _ (by rw [hM m' rfl]; omega) (by omega)]
        cases A with
        | none => exact hcm
        | some a' =>
          simp only [combineA, Option.map_some']
          rw [polyAdd_coeffs, zipWith_getD _ _ _ _ (by rw [hA a' rfl]; omega) (by omega), hcm]
      simp only [Option.map_some']
      rw [hca]
      rfl

end ReduceLemmas

section ReduceEq
variable {F : Type} [Field F]

lemma scs_at_bits (C : Composite F) (n idx : ℕ)
    (hcoeffs : ∀ p ∈ C.polys, p.coeffs.length = 2 ^ n) (hidx : idx < 2 ^ n) :
    C.polys.map (fun q => (epList q.coeffs (bitsBE F n idx)).headD 0) =
      C.polys.map (fun q => q.coeffs.getD idx 0) := by
  apply List.map_congr_left
  intro q hq
  rw [epList_bits n q.coeffs idx (hcoeffs q hq) hidx]
  rfl

lemma compEval_at_bits (C : Composite F) (n idx : ℕ) (hne : C.polys ≠ [])
    (hcoeffs : ∀ p ∈ C.polys, p.coeffs.length = 2 ^ n) (hidx : idx < 2 ^ n) :
    compEval C (bitsBE F n idx) =
      pcAcc none none ((C.polys.dropLast.zip C.ops).map
          (fun u => (u.1.coeffs.getD idx 0, u.2)))
        ((C.polys.getLast hne).coeffs.getD idx 0) := by
  simp only [compEval]
  rw [scs_at_bits C n idx hcoeffs hidx]
  rw [dropLast_map, zip_map_left']
  rw [getLastD_map_getD _ _ hne]

lemma reduce_eq (C : Composite F) (n : ℕ) (hne : C.polys ≠ [])
    (hlen : C.polys.length = C.ops.length + 1)
    (hcoeffs : ∀ p ∈ C.polys, p.coeffs.length = 2 ^ n) :
    ∃ R, C.reduce = some R ∧
      R.coeffs = (List.range (2 ^ n)).map (fun idx => compEval C (bitsBE F n idx)) := by
  obtain ⟨p, ps, hps⟩ := List.exists_cons_of_ne_nil hne
  have hdllen : C.polys.dropLast.length = C.ops.length := by
    rw [List.length_dropLast, hlen]
    omega
  have hdecomp : C.polys = C.polys.dropLast ++ [C.polys.getLast hne] :=
    (List.dropLast_append_getLast hne).symm
  have hpc := pcAcc_poly (C.polys.dropLast.zip C.ops) none none
    (C.polys.getLast hne) (2 ^ n)
    (by
      intro u hu
      exact hcoeffs u.1 (List.dropLast_subset _ (List.of_mem_zip hu).1))
    (hcoeffs _ (List.getLast_mem hne))
    (by simp) (by simp)
  refine ⟨pcAcc none none (C.polys.dropLast.zip C.ops) (C.polys.getLast hne), ?_, ?_⟩
  · unfold Composite.reduce
    have hhead : C.polys.head? = some p := by rw [hps]; rfl
    rw [hhead]
    simp only [Option.bind_eq_bind, Option.some_bind]
    rw [if_neg (by
      simp only [Bool.not_eq_true, List.any_eq_false, decide_eq_true_eq]
      intro x hx
      rw [hcoeffs x hx, hcoeffs p (by rw [hps]; exact List.mem_cons_self p ps)]
      simp)]
    conv_lhs => rw [hdecomp]
    rw [sy_correct _ _ _ hdllen]
    rfl
  · apply list_ext_getD
    · rw [hpc.1, List.length_map, List.length_range]
    · intro i hi
      rw [hpc.1] at hi
      rw [hpc.2 i hi, getD_map_range _ _ _ hi,
        compEval_at_bits C n i hne hcoeffs hi]
      rfl

end ReduceEq

section RoundLemmas
variable {F : Type} [Field F]

lemma bits_low (k idx : ℕ) (h : idx < 2 ^ k) :
    bitsBE F (k + 1) idx = (0 : F) :: bitsBE F k idx := by
  rw [bitsBE_succ]
  have h1 : idx >>> k = 0 := by
    rw [Nat.shiftRight_eq_div_pow]
    exact Nat.div_eq_of_lt h
  have h2 : idx % 2 ^ k = idx := Nat.mod_eq_of_lt h
  rw [h1, h2]
  norm_num

lemma bits_high (k idx : ℕ) (h : idx < 2 ^ k) :
    bitsBE F (k + 1) (2 ^ k + idx) = (1 : F) :: bitsBE F k idx := by
  rw [bitsBE_succ]
  have h1 : (2 ^ k + idx) >>> k = 1 := by
    rw [Nat.shiftRight_eq_div_pow, Nat.add_comm, Nat.add_div_right _ (Nat.pos_pow_of_pos k (by omega)),
      Nat.div_eq_of_lt h]
  have h2 : (2 ^ k + idx) % 2 ^ k = idx := by
    rw [Nat.add_comm, Nat.add_mod_right, Nat.mod_eq_of_lt h]
  rw [h1, h2]
  norm_num

lemma sum_split (f : ℕ → F) (k : ℕ) :
    ((List.range (2 ^ (k + 1))).map f).sum =
      ((List.range (2 ^ k)).map f).sum +
        ((List.range (2 ^ k)).map (fun i => f (2 ^ k + i))).sum := by
  rw [show (2 : ℕ) ^ (k + 1) = 2 ^ k + 2 ^ k by rw [pow_succ]; omega]
  rw [List.range_add, List.map_append, List.sum_append, List.map_map]
  rfl

lemma hcSum_split (C : Composite F) (k : ℕ) :
    hcSum C (k + 1) = gFun C k 0 + gFun C k 1 := by
  unfold hcSum gFun
  rw [sum_split]
  congr 1
  · apply congrArg
    apply List.map_congr_left
    intro idx hidx
    simp only [List.mem_range] at hidx
    rw [bits_low k idx hidx]
  · apply congrArg
    apply List.map_congr_left
    intro idx hidx
    simp only [List.mem_range] at hidx
    rw [bits_high k idx hidx]

lemma e2Point_eq (k idx : ℕ) :
    e2Point F (k + 1) idx = ((2 : F) :: bitsBE F k idx).map some := by
  unfold e2Point bitsBE
  rw [List.range_succ_eq_map]
  simp only [List.map_cons, List.map_map, if_pos rfl]
  refine List.cons_eq_cons.mpr ⟨rfl, ?_⟩
  apply List.map_congr_left
  intro m hm
  simp only [Function.comp_apply, Function.comp]
  rw [if_neg (by omega)]
  have he : k + 1 - Nat.succ m - 1 = k - m - 1 := by omega
  rw [he]

lemma compEval_pe (C : Composite F) (ch : F) (pts : List F) :
    compEval
      (Composite.mk (C.polys.map (fun x => MultivariatePoly.mk
        (MultivariatePoly.partial_evaluate x.coeffs 0 ch) (x.num_vars - 1))) C.ops)
      pts = compEval C (ch :: pts) := by
  simp only [compEval, List.map_map]
  rfl

lemma gFun_eq_hcSum_pe (C : Composite F) (ch : F) (k : ℕ) :
    hcSum (Composite.mk (C.polys.map (fun x => MultivariatePoly.mk
        (MultivariatePoly.partial_evaluate x.coeffs 0 ch) (x.num_vars - 1))) C.ops) k =
      gFun C k ch := by
  unfold hcSum gFun
  apply congrArg
  apply List.map_congr_left
  intro idx _
  rw [compEval_pe]

lemma pe_some (C : Composite F) (k : ℕ) (ch : F)
    (hcoeffs : ∀ p ∈ C.polys, p.coeffs.length = 2 ^ (k + 1))
    (hvars : ∀ p ∈ C.polys, p.num_vars = k + 1) :
    C.partial_evaluate [ch] 0 =
      some (Composite.mk (C.polys.map (fun x => MultivariatePoly.mk
        (MultivariatePoly.partial_evaluate x.coeffs 0 ch) (x.num_vars - 1))) C.ops) := by
  unfold Composite.partial_evaluate
  have h : ∀ x ∈ C.polys,
      MultivariatePoly.new
        (MultivariatePoly.partial_evaluate x.coeffs 0 ([ch].getD 0 0)) (x.num_vars - 1) =
      some (MultivariatePoly.mk
        (MultivariatePoly.partial_evaluate x.coeffs 0 ch) (x.num_vars - 1)) := by
    intro x hx
    simp only [List.getD_cons_zero]
    unfold MultivariatePoly.new
    rw [if_pos]
    rw [pe0_length, hcoeffs x hx, hvars x hx, Nat.add_sub_cancel, pow_succ]
    omega
  rw [mapM_of_forall_some C.polys _ _ h]
  rfl

lemma extras_some (H : List F → F) (C : Composite F) (k : ℕ)
    (hne : C.polys ≠ [])
    (hlen : C.polys.length = C.ops.length + 1)
    (hcoeffs : ∀ p ∈ C.polys, p.coeffs.length = 2 ^ (k + 1))
    (hvars : ∀ p ∈ C.polys, p.num_vars = k + 1) :
    (List.range (2 ^ k)).mapM (fun index => C.evaluate (e2Point F (k + 1) index)) =
      some ((List.range (2 ^ k)).map
        (fun index => compEval C ((2 : F) :: bitsBE F k index))) := by
  apply mapM_of_forall_some
  intro idx _
  rw [e2Point_eq]
  apply evaluate_eq_compEval C (k + 1) _ hne hlen hcoeffs hvars
  simp [bitsBE]

lemma genRound_eq (H : List F → F) (C : Composite F) (t : List F) (k : ℕ)
    (hne : C.polys ≠ [])
    (hlen : C.polys.length = C.ops.length + 1)
    (hcoeffs : ∀ p ∈ C.polys, p.coeffs.length = 2 ^ (k + 1))
    (hvars : ∀ p ∈ C.polys, p.num_vars = k + 1) :
    genRound H C t (k + 1) =
      some ([gFun C k 0, gFun C k 1, gFun C k 2],
        gFun C k 0 + gFun C k 1,
        H (t ++ (gFun C k 0 + gFun C k 1) :: [gFun C k 0, gFun C k 1, gFun C k 2]),
        Composite.mk (C.polys.map (fun x => MultivariatePoly.mk
          (MultivariatePoly.partial_evaluate x.coeffs 0
            (H (t ++ (gFun C k 0 + gFun C k 1) :: [gFun C k 0, gFun C k 1, gFun C k 2])))
          (x.num_vars - 1))) C.ops,
        t ++ (gFun C k 0 + gFun C k 1) :: [gFun C k 0, gFun C k 1, gFun C k 2]) := by
  obtain ⟨R, hR, hRc⟩ := reduce_eq C (k + 1) hne hlen hcoeffs
  have hRlen : R.coeffs.length = 2 ^ (k + 1) := by
    rw [hRc]
    simp
  have hextra : R.coeffs.length / 2 = 2 ^ k := by
    rw [hRlen, pow_succ]
    omega
  have hElen : ((List.range (2 ^ k)).map
      (fun index => compEval C ((2 : F) :: bitsBE F k index))).length = 2 ^ k := by
    simp
  have hS0 : (((R.coeffs ++ (List.range (2 ^ k)).map
        (fun index => compEval C ((2 : F) :: bitsBE F k index))).drop (0 * 2 ^ k)).take
          (2 ^ k)).sum = gFun C k 0 := by
    rw [Nat.zero_mul, List.drop_zero,
      List.take_append_of_le_length (by rw [hRlen, pow_succ]; omega),
      hRc, ← List.map_take, List.take_range]
    unfold gFun
    rw [Nat.min_eq_left (by rw [pow_succ]; omega)]
    apply congrArg
    apply List.map_congr_left
    intro idx hidx
    simp only [List.mem_range] at hidx
    rw [bits_low k idx hidx]
  have hS1 : (((R.coeffs ++ (List.range (2 ^ k)).map
        (fun index => compEval C ((2 : F) :: bitsBE F k index))).drop (1 * 2 ^ k)).take
          (2 ^ k)).sum = gFun C k 1 := by
    rw [Nat.one_mul,
      List.drop_append_of_le_length (by rw [hRlen, pow_succ]; omega),
      hRc, ← List.map_drop]
    rw [show (2 : ℕ) ^ (k + 1) = 2 ^ k + 2 ^ k by rw [pow_succ]; omega]
    rw [List.range_add, List.drop_left' (by simp), List.map_map,
      List.take_append_of_le_length (by simp), List.take_of_length_le (by simp)]
    unfold gFun
    apply congrArg
    apply List.map_congr_left
    intro idx hidx
    simp only [List.mem_range] at hidx
    simp only [Function.comp_apply, Function.comp]
    rw [bits_high k idx hidx]
  have hS2 : (((R.coeffs ++ (List.range (2 ^ k)).map
        (fun index => compEval C ((2 : F) :: bitsBE F k index))).drop (2 * 2 ^ k)).take
          (2 ^ k)).sum = gFun C k 2 := by
    rw [List.drop_left' (by rw [hRlen, pow_succ]; omega),
      List.take_of_length_le (by simp)]
    rfl
  unfold genRound
  rw [hR]
  simp only [Option.bind_eq_bind, Option.some_bind]
  rw [hextra, extras_some H C k hne hlen hcoeffs hvars]
  simp only [Option.some_bind]
  rw [show List.range 3 = [0, 1, 2] by rfl]
  simp only [List.map_cons, List.map_nil]
  rw [hS0, hS1, hS2]
  simp only [List.getD_cons_zero, List.getD_cons_succ]
  unfold add_data_to_transcript
  rw [pe_some C k _ hcoeffs hvars]
  simp only [Option.some_bind]
end RoundLemmas

section InterpLemmas
variable {F : Type} [Field F] [DecidableEq F]

lemma trim_eval (l : List F) (x : F) :
    (DensePolynomial.new l).evaluate x = (DensePolynomial.mk l).evaluate x := by
  unfold DensePolynomial.new
  induction l using trimTrailing.induct with
  | case1 l h ih =>
    rw [trimTrailing, dif_pos h]
    rw [ih]
    obtain ⟨h1, h0⟩ := h
    have hne : l ≠ [] := by
      intro hnil
      rw [hnil] at h1
      simp at h1
    have hlast : l.getLast hne = 0 := by
      rw [List.getLast?_eq_getLast l hne] at h0
      exact Option.some_injective _ h0
    conv_rhs => rw [← List.dropLast_append_getLast hne]
    unfold DensePolynomial.evaluate
    simp only [List.enum_append, List.map_append, List.sum_append]
    rw [hlast]
    simp [List.enumFrom]
  | case2 l h =>
    rw [trimTrailing, dif_neg h]

lemma interp3 (h2 : (2:F) ≠ 0) (g : F → F) (hg : QuadFun g) (x : F) :
    ∃ u, DensePolynomial.interpolate [((0:F), g 0), (1, g 1), (2, g 2)] = some u ∧
      u.evaluate x = g x := by
  obtain ⟨a, b, c, hgf⟩ := hg
  have hd0 : compute_lagrange_denominator (0:F) [((0:F), g 0), (1, g 1), (2, g 2)] 0 = 2 := by
    simp [compute_lagrange_denominator, List.enum, List.enumFrom, List.filter]
  have hd1 : compute_lagrange_denominator (1:F) [((0:F), g 0), (1, g 1), (2, g 2)] 1 = -1 := by
    simp [compute_lagrange_denominator, List.enum, List.enumFrom, List.filter]
    ring
  have hd2 : compute_lagrange_denominator (2:F) [((0:F), g 0), (1, g 1), (2, g 2)] 2 = 2 := by
    simp [compute_lagrange_denominator, List.enum, List.enumFrom, List.filter]
    ring
  have hb0 : compute_lagrange_basis 0 [((0:F), g 0), (1, g 1), (2, g 2)] = [2, -3, 1] := by
    simp [compute_lagrange_basis, List.enum, List.enumFrom, compute_linear_term,
      List.range_succ]
    try norm_num
  have hb1 : compute_lagrange_basis 1 [((0:F), g 0), (1, g 1), (2, g 2)] = [0, -2, 1] := by
    simp [compute_lagrange_basis, List.enum, List.enumFrom, compute_linear_term,
      List.range_succ]
    try norm_num
  have hb2 : compute_lagrange_basis 2 [((0:F), g 0), (1, g 1), (2, g 2)] = [0, -1, 1] := by
    simp [compute_lagrange_basis, List.enum, List.enumFrom, compute_linear_term,
      List.range_succ]
    try norm_num
  unfold DensePolynomial.interpolate
  simp only [List.enum, List.enumFrom, List.mapM_cons, List.mapM_nil]
  rw [hd0, hd1, hd2]
  have hneg : ((-1:F)) ≠ 0 := neg_ne_zero.mpr one_ne_zero
  rw [if_neg h2, if_neg hneg, if_neg h2]
  simp only [show (0+1 : ℕ) = 1 from rfl, show (0+1+1 : ℕ) = 2 from rfl]
  rw [hb0, hb1, hb2]
  simp only [Option.pure_def, Option.bind_eq_bind, Option.some_bind, List.map_cons,
    List.map_nil, List.length_cons, List.length_nil, List.foldl_cons, List.foldl_nil,
    List.replicate, List.zipWith_cons_cons, List.zipWith_nil_right]
  refine ⟨_, rfl, ?_⟩
  rw [trim_eval]
  unfold DensePolynomial.evaluate
  simp only [List.enum, List.enumFrom, List.map_cons, List.map_nil, List.sum_cons,
    List.sum_nil]
  rw [hgf x, hgf 0, hgf 1, hgf 2]
  have hi : (-1:F)⁻¹ = -1 := by
    rw [inv_eq_one_div]
    field_simp
  rw [hi]
  field_simp
  ring

lemma quad_congr {f g : F → F} (h : ∀ t, f t = g t) (hf : QuadFun f) : QuadFun g := by
  obtain ⟨a, b, c, hf⟩ := hf
  exact ⟨a, b, c, fun t => by rw [← h t]; exact hf t⟩

lemma verifyRound_quad (H : List F → F) (g : F → F) (hg : QuadFun g)
    (h2 : (2:F) ≠ 0) (t : List F) :
    verifyRound H (g 0 + g 1) [g 0, g 1, g 2] t =
      some (g (H (t ++ (g 0 + g 1) :: [g 0, g 1, g 2])),
        H (t ++ (g 0 + g 1) :: [g 0, g 1, g 2]),
        t ++ (g 0 + g 1) :: [g 0, g 1, g 2]) := by
  obtain ⟨u, hu, hue⟩ := interp3 h2 g hg (H (t ++ (g 0 + g 1) :: [g 0, g 1, g 2]))
  unfold verifyRound
  rw [if_neg (by simp), if_neg (by simp)]
  unfold add_data_to_transcript
  simp only [List.enum, List.enumFrom, List.map_cons, List.map_nil,
    show ((0:ℕ)+1) = 1 from rfl, show ((0:ℕ)+1+1) = 2 from rfl, Nat.cast_zero,
    Nat.cast_one, Nat.cast_ofNat]
  rw [hu]
  simp only [Option.bind_eq_bind, Option.some_bind]
  rw [hue]

lemma gFun_quad (C : Composite F) (k : ℕ)
    (hne : C.polys ≠ [])
    (hlen : C.polys.length = C.ops.length + 1)
    (hcoeffs : ∀ p ∈ C.polys, p.coeffs.length = 2 ^ (k + 1))
    (hq : noAdjacentMul C.ops) :
    QuadFun (gFun C k) := by
  have hmain : ∀ idx, idx < 2 ^ k → QuadFun (fun t => compEval C (t :: bitsBE F k idx)) := by
    intro idx _
    have hbs : (bitsBE F k idx).length = k := by simp [bitsBE]
    have hdl : C.polys.dropLast.length = C.ops.length := by
      rw [List.length_dropLast, hlen]
      omega
    have hkey := pcAcc_quad
      ((C.polys.dropLast.map
          (fun p => fun t => (epList p.coeffs (t :: bitsBE F k idx)).getD 0 0)).zip C.ops)
      none none
      (fun t => (epList (C.polys.getLast hne).coeffs (t :: bitsBE F k idx)).getD 0 0)
      ?_ ?_ (by simp) (by simp) ?_
    · apply quad_congr ?_ hkey
      intro t
      unfold compEval
      simp only [Option.map_none']
      rw [dropLast_map, getLastD_map_getD C.polys _ hne]
      simp only [headD_getD]
      rw [zip_map_left' C.polys.dropLast
        (fun p => fun t => (epList p.coeffs (t :: bitsBE F k idx)).getD 0 0) C.ops,
        zip_map_left' C.polys.dropLast
        (fun p => (epList p.coeffs (t :: bitsBE F k idx)).getD 0 0) C.ops,
        List.map_map]
      rfl
    · intro u hu
      obtain ⟨hu1, _⟩ := List.of_mem_zip hu
      rw [List.mem_map] at hu1
      obtain ⟨p, hp, hpe⟩ := hu1
      rw [← hpe]
      exact ep_head_affine k p.coeffs (hcoeffs p (List.dropLast_subset _ hp)) _ hbs
    · exact ep_head_affine k (C.polys.getLast hne).coeffs
        (hcoeffs _ (List.getLast_mem hne)) _ hbs
    · rw [List.map_snd_zip _ _ (by rw [List.length_map, hdl])]
      exact hq
  have := quad_range_sum (2 ^ k) (fun idx t => compEval C (t :: bitsBE F k idx)) hmain
  apply quad_congr ?_ this
  intro t
  rfl

end InterpLemmas

section MainRoundtrip
variable {F : Type} [Field F] [DecidableEq F]

lemma roundtrip (H : List F → F) (h2 : (2:F) ≠ 0) :
    ∀ (k : ℕ) (C : Composite F) (t : List F),
    C.polys ≠ [] → C.polys.length = C.ops.length + 1 →
    (∀ p ∈ C.polys, p.coeffs.length = 2 ^ k) →
    (∀ p ∈ C.polys, p.num_vars = k) →
    noAdjacentMul C.ops →
    ∃ rps chs ss tf,
      genRounds H k C t = some (rps, chs, ss, tf) ∧
      verifyRounds H rps (hcSum C k) t = some (compEval C chs, chs, tf) ∧
      (k ≠ 0 → ss.head? = some (hcSum C k)) ∧
      chs.length = k := by
  intro k
  induction k with
  | zero =>
    intro C t _ _ _ _ _
    refine ⟨[], [], [], t, rfl, ?_, fun h => absurd rfl h, rfl⟩
    have h0 : hcSum C 0 = compEval C [] := by
      simp [hcSum, bitsBE, List.range_succ]
    rw [h0]
    rfl
  | succ k ih =>
    intro C t hne hlen hcoeffs hvars hq
    have hg := genRound_eq H C t k hne hlen hcoeffs hvars
    set C2 : Composite F := Composite.mk (C.polys.map (fun x => MultivariatePoly.mk
        (MultivariatePoly.partial_evaluate x.coeffs 0
          (H (t ++ (gFun C k 0 + gFun C k 1) :: [gFun C k 0, gFun C k 1, gFun C k 2])))
        (x.num_vars - 1))) C.ops with hC2
    have hne2 : C2.polys ≠ [] := by
      rw [hC2]
      simpa using hne
    have hlen2 : C2.polys.length = C2.ops.length + 1 := by
      rw [hC2]
      simpa using hlen
    have hcoeffs2 : ∀ p ∈ C2.polys, p.coeffs.length = 2 ^ k := by
      rw [hC2]
      intro p hp
      simp only [List.mem_map] at hp
      obtain ⟨x, hx, hxp⟩ := hp
      rw [← hxp]
      show (MultivariatePoly.partial_evaluate x.coeffs 0 _).length = 2 ^ k
      rw [pe0_length, hcoeffs x hx, pow_succ]
      omega
    have hvars2 : ∀ p ∈ C2.polys, p.num_vars = k := by
      rw [hC2]
      intro p hp
      simp only [List.mem_map] at hp
      obtain ⟨x, hx, hxp⟩ := hp
      rw [← hxp]
      show x.num_vars - 1 = k
      rw [hvars x hx]
      omega
    have hq2 : noAdjacentMul C2.ops := by
      rw [hC2]
      exact hq
    obtain ⟨rps, chs, ss, tf, hgen, hver, _, hchl⟩ := ih C2
      (t ++ (gFun C k 0 + gFun C k 1) :: [gFun C k 0, gFun C k 1, gFun C k 2])
      hne2 hlen2 hcoeffs2 hvars2 hq2
    refine ⟨[gFun C k 0, gFun C k 1, gFun C k 2] ::
        rps,
      H (t ++ (gFun C k 0 + gFun C k 1) :: [gFun C k 0, gFun C k 1, gFun C k 2]) :: chs,
      (gFun C k 0 + gFun C k 1) :: ss, tf, ?_, ?_, ?_, ?_⟩
    · show genRounds H (k + 1) C t = _
      unfold genRounds
      rw [hg]
      simp only [Option.bind_eq_bind, Option.some_bind]
      rw [hgen]
      rfl
    · rw [hcSum_split]
      show verifyRounds H _ _ t = _
      unfold verifyRounds
      rw [verifyRound_quad H (gFun C k) (gFun_quad C k hne hlen hcoeffs hq) h2 t]
      simp only [Option.bind_eq_bind, Option.some_bind]
      have hch : gFun C k
          (H (t ++ (gFun C k 0 + gFun C k 1) :: [gFun C k 0, gFun C k 1, gFun C k 2])) =
          hcSum C2 k := by
        rw [hC2, gFun_eq_hcSum_pe]
      rw [hch, hver]
      simp only [Option.some_bind]
      rw [show compEval C2 chs = compEval C
        (H (t ++ (gFun C k 0 + gFun C k 1) :: [gFun C k 0, gFun C k 1, gFun C k 2]) :: chs)
        from by rw [hC2]; exact compEval_pe C _ chs]
    · intro _
      rw [List.head?_cons, hcSum_split]
    · simp [hchl]

end MainRoundtrip

/-- **C1** Sum-check completeness round-trip: for every composite of `n ≥ 1`
variables whose operator chain keeps the per-variable degree at most 2 (no
two adjacent `MUL`s), `generate_partial_proof` from a fresh transcript
succeeds, `verify_partial_proof` on the returned initial sum and round
polynomials from an identically fresh transcript succeeds with the same
challenge sequence, the verifier's final running sum is the composite
evaluated at the derived challenge vector, and the initial sum is the true
boolean-hypercube sum. -/
theorem C1_sumcheck_completeness {F : Type} [Field F] [DecidableEq F]
    (H : List F → F) (h2 : (2:F) ≠ 0) (n : ℕ) (hn : 1 ≤ n) (C : Composite F)
    (hne : C.polys ≠ [])
    (hlen : C.polys.length = C.ops.length + 1)
    (hcoeffs : ∀ p ∈ C.polys, p.coeffs.length = 2 ^ n)
    (hvars : ∀ p ∈ C.polys, p.num_vars = n)
    (hq : noAdjacentMul C.ops) :
    ∃ rps chs tf,
      generate_partial_proof H C [] = some (hcSum C n, rps, chs, tf) ∧
      verify_partial_proof H (hcSum C n) rps [] =
        some (compEval C chs, chs, tf) ∧
      C.evaluate (chs.map some) = some (compEval C chs) ∧
      chs.length = n := by
  obtain ⟨rps, chs, ss, tf, hgen, hver, hss, hchl⟩ :=
    roundtrip H h2 n C [] hne hlen hcoeffs hvars hq
  have hs0 : ss.head? = some (hcSum C n) := hss (by omega)
  refine ⟨rps, chs, tf, ?_, ?_, ?_, hchl⟩
  · unfold generate_partial_proof
    rw [List.head?_eq_head hne]
    simp only [Option.bind_eq_bind, Option.some_bind]
    rw [hvars _ (List.head_mem hne), hgen]
    simp only [Option.some_bind]
    rw [hs0]
    rfl
  · unfold verify_partial_proof
    exact hver
  · exact evaluate_eq_compEval C n chs hne hlen hcoeffs hvars hchl


/-- Witness for C1 at a concrete input: one 1-variable MLE `[1, 2]` over
`ZMod 5` with no operators and the hash oracle `sum + 1`. -/
theorem C1_sumcheck_completeness_witness :
    (2 : ZMod 5) ≠ 0 ∧
    (∃ rps chs tf,
      generate_partial_proof (fun l : List (ZMod 5) => l.sum + 1)
          (Composite.mk [MultivariatePoly.mk [1, 2] 1] []) [] =
        some (hcSum (Composite.mk [MultivariatePoly.mk [1, 2] 1] []) 1, rps, chs, tf) ∧
      verify_partial_proof (fun l : List (ZMod 5) => l.sum + 1)
          (hcSum (Composite.mk [MultivariatePoly.mk [1, 2] 1] []) 1) rps [] =
        some (compEval (Composite.mk [MultivariatePoly.mk [1, 2] 1] []) chs, chs, tf) ∧
      (Composite.mk [MultivariatePoly.mk [1, 2] 1] []).evaluate (chs.map some) =
        some (compEval (Composite.mk [MultivariatePoly.mk [1, 2] 1] []) chs) ∧
      chs.length = 1) :=
  ⟨by decide, C1_sumcheck_completeness (fun l : List (ZMod 5) => l.sum + 1)
    (by decide) 1 (by omega) (Composite.mk [MultivariatePoly.mk [1, 2] 1] [])
    (by simp) rfl
    (fun p hp => by rw [List.mem_singleton] at hp; subst hp; rfl)
    (fun p hp => by rw [List.mem_singleton] at hp; subst hp; rfl)
    rfl⟩

/-- **C8** Composite operator precedence: the shunting-yard reduction of the
scalar operand list `[2,2,3,3,3,3,7,7]` under `[MUL,MUL,MUL,MUL,ADD,MUL,MUL]`
gives `MUL` precedence over `ADD` and yields exactly `255 = 2*2*3*3*3 + 3*7*7`
over the bn254 base field. -/
theorem C8_composite_precedence :
    shunting_yard_algo ([2, 2, 3, 3, 3, 3, 7, 7] : List (ZMod bn254Modulus))
      [OP.MUL, OP.MUL, OP.MUL, OP.MUL, OP.ADD, OP.MUL, OP.MUL] =
      some (Token.val 255) := by
  decide

/-- **C3** A round record whose first two entries miss the running sum makes
both sum-check verifiers take the source's `assert!`/panic path (modelled
`none`) instead of returning a rejection value: with claimed sum 1 and the
record `[0,0,0]`, both verifiers abort. -/
theorem C3_verifier_rejection_is_a_panic :
    verify_partial_proof (fun l : List (ZMod 5) => l.sum) 1 [[0, 0, 0]] [] = none ∧
    verify_partial_proof_2 (fun l : List (ZMod 5) => l.sum) 1 [[0, 0, 0]] [] = none := by
  constructor <;> decide

/-- **C4** The GKR verification path truncates three-point records:
`DensePolynomial::new` trims the record `(e0,e1,e2) = (0,1,0)` to `[0,1]`,
after which the round interpolates only the two points `(0,0),(1,1)` and
returns 3 at challenge 3 (over `ZMod 5`, hash constantly 3), while the
unique degree-≤2 polynomial through all three points `(0,0),(1,1),(2,0)`
evaluates to 2 there. -/
theorem C4_trailing_trim_truncates_round_records :
    (gkr_round_records_to_polys [([0, 1, 0] : List (ZMod 5))]).map
        DensePolynomial.coefficients = [[0, 1]] ∧
    verifyRound (fun _ : List (ZMod 5) => 3) 1 [0, 1] [] = some (3, 3, [1, 0, 1]) ∧
    (∃ u3, DensePolynomial.interpolate [((0 : ZMod 5), 0), (1, 1), (2, 0)] = some u3 ∧
      u3.evaluate 3 = 2) := by
  have htrim3 : trimTrailing ([0, 1, 0] : List (ZMod 5)) = [0, 1] := by
    rw [trimTrailing, dif_pos (by decide)]
    show trimTrailing [0, 1] = [0, 1]
    rw [trimTrailing, dif_neg (by decide)]
  have htrim2 : trimTrailing ([0, 1] : List (ZMod 5)) = [0, 1] := by
    rw [trimTrailing, dif_neg (by decide)]
  have hI2 : DensePolynomial.interpolate [((0 : ZMod 5), 0), (1, 1)] =
      some (DensePolynomial.mk [0, 1]) := by
    unfold DensePolynomial.interpolate
    simp only [List.enum, List.enumFrom, List.mapM_cons, List.mapM_nil]
    rw [show compute_lagrange_denominator ((0 : ZMod 5)) [((0 : ZMod 5), 0), (1, 1)] 0 = -1
        from by decide,
      show compute_lagrange_denominator ((1 : ZMod 5)) [((0 : ZMod 5), 0), (1, 1)] (0 + 1) = 1
        from by decide]
    rw [if_neg (by decide), if_neg (by decide)]
    rw [show ((-1 : ZMod 5))⁻¹ = -1 from inv_neg_one, inv_one]
    show some (DensePolynomial.new _) = _
    unfold DensePolynomial.new
    have hmk : ∀ l : List (ZMod 5), l = [0, 1] →
        (DensePolynomial.mk (trimTrailing l) : DensePolynomial (ZMod 5)) =
          DensePolynomial.mk [0, 1] := by
      intro l hl
      rw [hl, htrim2]
    rw [hmk _ (by decide)]
  have hI3 : DensePolynomial.interpolate [((0 : ZMod 5), 0), (1, 1), (2, 0)] =
      some (DensePolynomial.mk [0, 2, 4]) := by
    unfold DensePolynomial.interpolate
    simp only [List.enum, List.enumFrom, List.mapM_cons, List.mapM_nil]
    rw [show compute_lagrange_denominator ((0 : ZMod 5))
          [((0 : ZMod 5), 0), (1, 1), (2, 0)] 0 = 2 from by decide,
      show compute_lagrange_denominator ((1 : ZMod 5))
          [((0 : ZMod 5), 0), (1, 1), (2, 0)] (0 + 1) = -1 from by decide,
      show compute_lagrange_denominator ((2 : ZMod 5))
          [((0 : ZMod 5), 0), (1, 1), (2, 0)] (0 + 1 + 1) = 2 from by decide]
    rw [if_neg (by decide), if_neg (by decide), if_neg (by decide)]
    rw [show ((2 : ZMod 5))⁻¹ = 3 from inv_eq_of_mul_eq_one_right (by decide),
      show ((-1 : ZMod 5))⁻¹ = -1 from inv_neg_one]
    show some (DensePolynomial.new _) = _
    unfold DensePolynomial.new
    have htr : trimTrailing ([0, 2, 4] : List (ZMod 5)) = [0, 2, 4] := by
      rw [trimTrailing, dif_neg (by decide)]
    have hmk : ∀ l : List (ZMod 5), l = [0, 2, 4] →
        (DensePolynomial.mk (trimTrailing l) : DensePolynomial (ZMod 5)) =
          DensePolynomial.mk [0, 2, 4] := by
      intro l hl
      rw [hl, htr]
    rw [hmk _ (by decide)]
  refine ⟨?_, ?_, DensePolynomial.mk [0, 2, 4], hI3, by decide⟩
  · show (List.map DensePolynomial.new _).map _ = _
    simp only [List.map_cons, List.map_nil, DensePolynomial.new]
    rw [htrim3]
  · unfold verifyRound
    rw [if_neg (by decide), if_neg (by decide)]
    simp only [List.enum, List.enumFrom, List.map_cons, List.map_nil,
      show ((0:ℕ)+1) = 1 from rfl, Nat.cast_zero, Nat.cast_one]
    rw [hI2]
    decide

/-- **C6** The first-layer challenge vectors of prover and verifier diverge:
`generate_proof` fills every entry with one replicated squeeze while
`verify_proof` squeezes per entry; on the output vector `[0,0,0,0]` over
`ZMod 5` with the hash `sum + length` the prover derives `[0,0]` and the
verifier `[0,1]`. -/
theorem C6_first_layer_challenges_diverge :
    gkr_prover_first_challenges
        (fun l : List (ZMod 5) => l.sum + l.length) [0, 0, 0, 0] [] = [0, 0] ∧
    gkr_verifier_first_challenges
        (fun l : List (ZMod 5) => l.sum + l.length) [0, 0, 0, 0] [] = [0, 1] := by
  have hnp : next_pow_of_2 4 = 2 := by
    unfold next_pow_of_2
    rw [show (4:ℕ) = 2 ^ 2 from rfl, Nat.clog_pow 2 2 (by omega)]
    decide
  constructor
  · unfold gkr_prover_first_challenges
    rw [show List.length ([0, 0, 0, 0] : List (ZMod 5)) = 4 from rfl, hnp]
    decide
  · unfold gkr_verifier_first_challenges
    rw [show List.length ([0, 0, 0, 0] : List (ZMod 5)) = 4 from rfl, hnp]
    decide

/-- **C2** (amended) The `transcript` crate's `squeeze` finalizes a *clone*
of the hash state: the returned transcript is the unchanged input and two
consecutive squeezes with no intervening absorb return the *same* field
element; the reseeding the spec describes happens only in the sumcheck
crate's `sample_challenge`, whose next state is exactly the digest it
returns. -/
theorem C2_transcript_squeeze_amended {F S : Type} (K : HashModel S)
    (toF : List ℕ → F) (t : Transcript S)
    (keccak : List ℕ → List ℕ) (t2 : Transcript2) :
    (Transcript.squeeze K toF t).2 = t ∧
    (Transcript.squeeze K toF (Transcript.squeeze K toF t).2).1 =
      (Transcript.squeeze K toF t).1 ∧
    (Transcript2.sample_challenge keccak t2).2.state = keccak t2.state ∧
    (Transcript2.sample_challenge keccak t2).1 = keccak t2.state :=
  ⟨rfl, rfl, rfl, rfl⟩

/-- Counterexample to C2 as stated: on the identity hash model over `ZMod 5`
two consecutive squeezes return equal elements, not different ones. -/
theorem C2_transcript_squeeze_counterexample :
    (Transcript.squeeze (HashModel.mk (fun s d => s ++ d) id)
        (fun l => (l.sum : ZMod 5))
        (Transcript.squeeze (HashModel.mk (fun s d => s ++ d) id)
          (fun l => (l.sum : ZMod 5)) (Transcript.mk [1])).2).1 =
      (Transcript.squeeze (HashModel.mk (fun s d => s ++ d) id)
        (fun l => (l.sum : ZMod 5)) (Transcript.mk [1])).1 := rfl

/-- Counterexample to C9 as stated: `Composite::new` accepts two operands of
*different* (power-of-two) lengths — no fatal construction error occurs. -/
theorem C9_composite_new_counterexample :
    Composite.new ([[1, 2], [1, 2, 3, 4]] : List (List (ZMod 5))) [OP.ADD] =
      some (Composite.mk
        [MultivariatePoly.mk [1, 2] 1, MultivariatePoly.mk [1, 2, 3, 4] 2]
        [OP.ADD]) := by
  have hl2 : Nat.log2 2 = 1 := by
    rw [Nat.log2, if_pos (by omega), Nat.log2, if_neg (by omega)]
  have hl4 : Nat.log2 4 = 2 := by
    rw [Nat.log2, if_pos (by omega)]
    show Nat.log2 2 + 1 = 2
    rw [hl2]
  unfold Composite.new
  rw [if_neg (by decide)]
  simp only [List.mapM_cons, List.mapM_nil]
  rw [show (([1, 2] : List (ZMod 5)).length.log2) = 1 from hl2,
    show (([1, 2, 3, 4] : List (ZMod 5)).length.log2) = 2 from hl4]
  decide

section HypercubeLemmas
variable {F : Type} [Field F]

lemma basisProd_factor (n : ℕ) (pt : List F) (i : ℕ) :
    basisProd (n + 1) pt i = basisProd n pt i *
      (if (i >>> n) % 2 = 1 then pt.getD n 0 else 1 - pt.getD n 0) := by
  unfold basisProd
  rw [List.range_succ, List.foldl_append, List.foldl_cons, List.foldl_nil]

lemma basisProd_congr (n : ℕ) (p q : List F) (i1 i2 : ℕ)
    (hp : ∀ j < n, p.getD j 0 = q.getD j 0)
    (hi : ∀ j < n, (i1 >>> j) % 2 = (i2 >>> j) % 2) :
    basisProd n p i1 = basisProd n q i2 := by
  induction n with
  | zero => rfl
  | succ n ih =>
    rw [basisProd_factor, basisProd_factor,
      ih (fun j hj => hp j (by omega)) (fun j hj => hi j (by omega)),
      hp n (by omega), hi n (by omega)]

lemma boolPoint_getD (m x j : ℕ) (hj : j < m) :
    (boolPoint m x : List F).getD j 0 = if (x >>> j) % 2 = 1 then (1 : F) else 0 := by
  unfold boolPoint
  exact getD_map_range m j _ hj

lemma unique_base_digits (u v a b A : ℕ) (hA : 0 < A) (hu : u < A) (hv : v < A) :
    u + A * a = v + A * b ↔ (u = v ∧ a = b) := by
  constructor
  · intro h
    have ha : (u + A * a) % A = u := by
      rw [Nat.add_mul_mod_self_left, Nat.mod_eq_of_lt hu]
    have hb : (v + A * b) % A = v := by
      rw [Nat.add_mul_mod_self_left, Nat.mod_eq_of_lt hv]
    have huv : u = v := by
      rw [← ha, h, hb]
    refine ⟨huv, ?_⟩
    have hmul : A * a = A * b := by
      rw [huv] at h
      omega
    exact Nat.eq_of_mul_eq_mul_left hA hmul
  · rintro ⟨rfl, rfl⟩
    rfl

lemma mod_two_pow_succ_iff (i x n : ℕ) :
    i % 2 ^ (n + 1) = x % 2 ^ (n + 1) ↔
      (i % 2 ^ n = x % 2 ^ n ∧ (i >>> n) % 2 = (x >>> n) % 2) := by
  rw [Nat.shiftRight_eq_div_pow, Nat.shiftRight_eq_div_pow,
    Nat.mod_pow_succ, Nat.mod_pow_succ]
  have hpow : 0 < (2:ℕ) ^ n := Nat.pos_pow_of_pos _ (by omega)
  exact unique_base_digits _ _ _ _ _ hpow (Nat.mod_lt _ hpow) (Nat.mod_lt _ hpow)

lemma basisProd_boolPoint (n x i : ℕ) :
    basisProd n (boolPoint n x : List F) i = if i % 2 ^ n = x % 2 ^ n then (1 : F) else 0 := by
  induction n with
  | zero =>
    simp [basisProd, Nat.mod_one]
  | succ n ih =>
    rw [basisProd_factor]
    have hc : basisProd n (boolPoint (n + 1) x : List F) i = basisProd n (boolPoint n x : List F) i :=
      basisProd_congr n _ _ i i
        (fun j hj => by
          rw [boolPoint_getD _ _ j (by omega), boolPoint_getD _ _ j (by omega)])
        (fun j _ => rfl)
    rw [hc, ih, boolPoint_getD (n + 1) x n (by omega)]
    rcases Nat.mod_two_eq_zero_or_one (i >>> n) with hbi | hbi <;>
      rcases Nat.mod_two_eq_zero_or_one (x >>> n) with hbx | hbx <;>
      by_cases h1 : i % 2 ^ n = x % 2 ^ n <;>
      simp [hbi, hbx, h1, mod_two_pow_succ_iff]

lemma sum_range_delta (m x : ℕ) (v : F) (hx : x < m) :
    ((List.range m).map (fun i => if i = x then v else 0)).sum = v := by
  induction m with
  | zero => omega
  | succ m ih =>
    rw [List.range_succ, List.map_append, List.sum_append]
    by_cases h : x = m
    · subst h
      have hz : ((List.range x).map (fun i => if i = x then v else 0)) =
          (List.range x).map (fun _ => 0) :=
        List.map_congr_left (fun i hi => by
          rw [if_neg]
          simp only [List.mem_range] at hi
          omega)
      rw [hz]
      simp
    · rw [ih (by omega)]
      have hz : (if m = x then v else 0) = 0 := if_neg (fun hh => h hh.symm)
      simp [hz]

lemma evalCore_boolPoint (P : MultivariatePoly F)
    (hlen : P.coeffs.length = 2 ^ P.num_vars)
    (x : ℕ) (hx : x < 2 ^ P.num_vars) :
    P.evaluateCore (boolPoint P.num_vars x) = P.coeffs.getD x 0 := by
  unfold MultivariatePoly.evaluateCore
  have hmap : (List.range P.coeffs.length).map
      (fun i => P.coeffs.getD i 0 * basisProd P.num_vars (boolPoint P.num_vars x) i) =
      (List.range P.coeffs.length).map (fun i => if i = x then P.coeffs.getD x 0 else 0) := by
    apply List.map_congr_left
    intro i hi
    simp only [List.mem_range] at hi
    rw [hlen] at hi
    rw [basisProd_boolPoint, Nat.mod_eq_of_lt hi, Nat.mod_eq_of_lt hx]
    by_cases h : i = x
    · subst h
      rw [if_pos rfl, if_pos rfl, mul_one]
    · rw [if_neg h, if_neg h, mul_zero]
  rw [hmap, hlen, sum_range_delta _ _ _ hx]

lemma sum_getD_range (l : List F) :
    ((List.range l.length).map (fun i => l.getD i 0)).sum = l.sum := by
  have h : (List.range l.length).map (fun i => l.getD i 0) = l := by
    apply list_ext_getD
    · simp
    · intro i hi
      simp only [List.length_map, List.length_range] at hi
      rw [getD_map_range _ _ _ hi]
  rw [h]

lemma mapM_eq_none {β γ : Type} (l : List β) (f : β → Option γ) (x : β)
    (hx : x ∈ l) (h : f x = none) : l.mapM f = none := by
  induction l with
  | nil => simp at hx
  | cons y ys ih =>
    rw [List.mapM_cons]
    rcases List.mem_cons.mp hx with rfl | hmem
    · rw [h]
      rfl
    · cases hfy : f y
      · rfl
      · rw [ih hmem]
        rfl

end HypercubeLemmas

/-- **C10** The boolean-hypercube sum of `sum_over_boolean_hypercube` equals
the plain sum of the stored value vector: the multilinear basis is a delta
function on hypercube points. -/
theorem C10_hypercube_sum_eq_value_sum {F : Type} [Field F] (P : MultivariatePoly F)
    (hlen : P.coeffs.length = 2 ^ P.num_vars) :
    P.sum_over_boolean_hypercube = P.coeffs.sum := by
  unfold MultivariatePoly.sum_over_boolean_hypercube
  have hmap : (List.range (2 ^ P.num_vars)).map
      (fun i => P.evaluateCore (boolPoint P.num_vars i)) =
      (List.range (2 ^ P.num_vars)).map (fun i => P.coeffs.getD i 0) :=
    List.map_congr_left (fun i hi => evalCore_boolPoint P hlen i (List.mem_range.mp hi))
  rw [hmap, ← hlen, sum_getD_range]

/-- Witness for C10 on the 2-variable MLE `[1,2,3,4]` over `ZMod 5`. -/
theorem C10_hypercube_sum_eq_value_sum_witness :
    (MultivariatePoly.mk ([1, 2, 3, 4] : List (ZMod 5)) 2).coeffs.length =
      2 ^ (MultivariatePoly.mk ([1, 2, 3, 4] : List (ZMod 5)) 2).num_vars ∧
    (MultivariatePoly.mk ([1, 2, 3, 4] : List (ZMod 5)) 2).sum_over_boolean_hypercube =
      ([1, 2, 3, 4] : List (ZMod 5)).sum :=
  ⟨by decide, C10_hypercube_sum_eq_value_sum _ (by decide)⟩

/-- **C9** (amended) `Composite::new` succeeds exactly when the operator
count is one less than the operand count and every operand's length is a
power of two, in which case each operand becomes an MLE with
`num_vars = log2(len)`; equal lengths across operands are *not* required. -/
theorem C9_composite_new_amended {F : Type} (hypercubes : List (List F)) (ops : List OP) :
    Composite.new hypercubes ops =
      if ops.length + 1 = hypercubes.length ∧
          ∀ cube ∈ hypercubes, 2 ^ cube.length.log2 = cube.length
      then some (Composite.mk (hypercubes.map
        (fun cube => MultivariatePoly.mk cube cube.length.log2)) ops)
      else none := by
  unfold Composite.new
  by_cases hlen : ops.length + 1 = hypercubes.length
  · rw [if_neg (by omega)]
    by_cases hall : ∀ cube ∈ hypercubes, 2 ^ cube.length.log2 = cube.length
    · rw [if_pos ⟨hlen, hall⟩]
      rw [mapM_of_forall_some _ _
        (fun cube => MultivariatePoly.mk cube cube.length.log2) ?_]
      · rfl
      · intro cube hc
        rw [if_neg (not_ne_iff.mpr (hall cube hc))]
        unfold MultivariatePoly.new
        rw [if_pos (hall cube hc).symm]
    · rw [if_neg (fun h => hall h.2)]
      push_neg at hall
      obtain ⟨cube, hc, hne⟩ := hall
      have hf : (if 2 ^ cube.length.log2 ≠ cube.length then none
          else MultivariatePoly.new cube cube.length.log2) = none := if_pos hne
      rw [mapM_eq_none hypercubes _ cube hc hf]
      rfl
  · rw [if_pos (by omega), if_neg (fun h => hlen h.1)]

section BlowUpLemmas
variable {F : Type} [Field F]

lemma foldl_mul_init (g : ℕ → F) (l : List ℕ) :
    ∀ a : F, l.foldl (fun acc j => acc * g j) a = a * l.foldl (fun acc j => acc * g j) 1 := by
  induction l with
  | nil => intro a; simp
  | cons x xs ih =>
    intro a
    rw [List.foldl_cons, List.foldl_cons, ih (a * g x), ih (1 * g x)]
    ring

lemma basisProd_cons (n : ℕ) (x : F) (pt : List F) (i : ℕ) :
    basisProd (n + 1) (x :: pt) i =
      (if i % 2 = 1 then x else 1 - x) * basisProd n pt (i >>> 1) := by
  unfold basisProd
  rw [List.range_succ_eq_map, List.foldl_cons, List.foldl_map]
  rw [foldl_mul_init]
  have hfun : (fun (acc : F) (j : ℕ) => acc *
      (if (i >>> (j + 1)) % 2 = 1 then (x :: pt).getD (j + 1) 0
        else 1 - (x :: pt).getD (j + 1) 0)) =
      (fun (acc : F) (j : ℕ) => acc *
      (if ((i >>> 1) >>> j) % 2 = 1 then pt.getD j 0 else 1 - pt.getD j 0)) := by
    funext acc j
    rw [List.getD_cons_succ, Nat.add_comm j 1, Nat.shiftRight_add]
  rw [hfun]
  have h0 : (i >>> 0) % 2 = i % 2 := by rw [Nat.shiftRight_zero]
  rw [h0, List.getD_cons_zero]
  ring


lemma sum_range_pair (m : ℕ) (f : ℕ → F) :
    ((List.range (2 * m)).map f).sum =
      ((List.range m).map (fun i => f (2 * i) + f (2 * i + 1))).sum := by
  induction m with
  | zero => rfl
  | succ m ih =>
    rw [show 2 * (m + 1) = (2 * m + 1) + 1 from by omega]
    rw [List.range_succ, List.map_append, List.sum_append]
    rw [show (2 * m + 1) = (2 * m) + 1 from rfl]
    rw [List.range_succ, List.map_append, List.sum_append]
    rw [List.range_succ, List.map_append, List.sum_append]
    rw [ih]
    simp only [List.map_cons, List.map_nil, List.sum_cons, List.sum_nil]
    ring

lemma high_bit_add_low_bits (m i j : ℕ) (hj : j < m) :
    ((2 ^ m + i) >>> j) % 2 = (i >>> j) % 2 := by
  rw [Nat.shiftRight_eq_div_pow, Nat.shiftRight_eq_div_pow]
  have hsplit : (2:ℕ) ^ m = 2 * 2 ^ (m - j - 1) * 2 ^ j := by
    rw [← pow_succ']
    rw [← pow_add]
    congr 1
    omega
  rw [hsplit, Nat.add_comm, Nat.add_mul_div_right _ _ (Nat.pos_pow_of_pos _ (by omega)),
    Nat.add_mul_mod_self_left]

lemma evalCore_double (c : List F) (n : ℕ) (hc : c.length = 2 ^ n) (x : F) (pt : List F) :
    (MultivariatePoly.mk ((List.range (2 ^ (n + 1))).map (fun i => c.getD (i >>> 1) 0))
      (n + 1)).evaluateCore (x :: pt) = (MultivariatePoly.mk c n).evaluateCore pt := by
  unfold MultivariatePoly.evaluateCore
  simp only [List.length_map, List.length_range]
  rw [show (2:ℕ) ^ (n + 1) = 2 * 2 ^ n from by rw [pow_succ]; ring]
  rw [sum_range_pair, hc]
  apply congrArg
  apply List.map_congr_left
  intro i hi
  simp only [List.mem_range] at hi
  rw [getD_map_range _ _ _ (by omega), getD_map_range _ _ _ (by omega)]
  rw [basisProd_cons, basisProd_cons]
  rw [show (2 * i) >>> 1 = i from by omega, show (2 * i + 1) >>> 1 = i from by omega,
    show (2 * i) % 2 = 0 from by omega, show (2 * i + 1) % 2 = 1 from by omega]
  rw [if_neg (by omega), if_pos rfl]
  ring


lemma evalCore_split (A B : List F) (m : ℕ) (hA : A.length = 2 ^ m) (hB : B.length = 2 ^ m)
    (pt : List F) :
    (MultivariatePoly.mk (A ++ B) (m + 1)).evaluateCore pt =
      (MultivariatePoly.mk A m).evaluateCore pt * (1 - pt.getD m 0) +
      (MultivariatePoly.mk B m).evaluateCore pt * pt.getD m 0 := by
  unfold MultivariatePoly.evaluateCore
  simp only [List.length_append, hA, hB]
  rw [List.range_add, List.map_append, List.sum_append]
  congr 1
  · rw [← List.sum_map_mul_right]
    apply congrArg
    apply List.map_congr_left
    intro i hi
    simp only [List.mem_range] at hi
    rw [basisProd_factor]
    have hsh : (i >>> m) % 2 = 0 := by
      rw [Nat.shiftRight_eq_div_pow, Nat.div_eq_of_lt (by omega)]
    rw [hsh, if_neg (by omega)]
    rw [List.getD_append _ _ _ _ (by omega)]
    ring
  · rw [← List.sum_map_mul_right, List.map_map]
    apply congrArg
    apply List.map_congr_left
    intro i hi
    simp only [List.mem_range, Function.comp_apply] at hi ⊢
    rw [basisProd_factor]
    have hsh : ((2 ^ m + i) >>> m) % 2 = 1 := by
      rw [Nat.shiftRight_eq_div_pow]
      have : (2 ^ m + i) / 2 ^ m = 1 := by
        rw [Nat.add_comm, Nat.add_div_right _ (Nat.pos_pow_of_pos _ (by omega)),
          Nat.div_eq_of_lt (by omega)]
      rw [this]
    rw [hsh, if_pos rfl]
    rw [List.getD_append_right _ _ _ _ (by omega)]
    rw [show 2 ^ m + i - A.length = i from by omega]
    rw [basisProd_congr m pt pt (2 ^ m + i) i (fun j _ => rfl)
      (fun j hj => high_bit_add_low_bits m i j hj)]
    ring

lemma trailingZeros_two_pow (n : ℕ) : trailingZeros (2 ^ n) = n := by
  induction n with
  | zero =>
    rw [trailingZeros, dif_pos (by omega)]
  | succ n ih =>
    rw [trailingZeros, dif_neg ?_]
    · rw [show (2:ℕ) ^ (n + 1) / 2 = 2 ^ n from by rw [pow_succ]; omega, ih]
    · have h1 : (2:ℕ) ^ (n + 1) % 2 = 0 := by
        rw [pow_succ]
        omega
      have h2 : 0 < (2:ℕ) ^ (n + 1) := Nat.pos_pow_of_pos _ (by omega)
      omega


lemma evalCore_point_congr (c : List F) (m : ℕ) (pt1 pt2 : List F)
    (h : ∀ j < m, pt1.getD j 0 = pt2.getD j 0) :
    (MultivariatePoly.mk c m).evaluateCore pt1 = (MultivariatePoly.mk c m).evaluateCore pt2 := by
  unfold MultivariatePoly.evaluateCore
  apply congrArg
  apply List.map_congr_left
  intro i _
  rw [basisProd_congr m pt1 pt2 i i h (fun _ _ => rfl)]

lemma blow_up_right_eq (P : MultivariatePoly F) (k n : ℕ) (hn : P.num_vars = n)
    (hlen : P.coeffs.length = 2 ^ n) (h1 : 1 ≤ n) :
    P.blow_up_right k = some (MultivariatePoly.mk
      ((List.range (2 ^ (n + k))).map (fun i => P.coeffs.getD (i >>> k) 0)) (n + k)) := by
  unfold MultivariatePoly.blow_up_right get_blow_up_poly
  rw [hlen, if_neg ?_]
  · simp only [Option.some_bind, Option.bind_eq_bind]
    rw [List.length_replicate, trailingZeros_two_pow]
    unfold MultivariatePoly.new
    rw [hn]
    rw [if_pos (by simp)]
  · push_neg
    have he : (2:ℕ) ^ n % 2 = 0 := by
      rw [show n = (n - 1) + 1 from by omega, pow_succ]
      omega
    have hp : 0 < (2:ℕ) ^ n := Nat.pos_pow_of_pos _ (by omega)
    omega

lemma blow_up_left_eq (P : MultivariatePoly F) (k n : ℕ) (hn : P.num_vars = n)
    (hlen : P.coeffs.length = 2 ^ n) (h1 : 1 ≤ n) :
    P.blow_up_left k = some (MultivariatePoly.mk
      ((List.range (2 ^ (n + k))).map
        (fun i => P.coeffs.getD (i &&& (2 ^ n - 1)) 0)) (n + k)) := by
  unfold MultivariatePoly.blow_up_left get_blow_up_poly
  rw [hlen, if_neg ?_]
  · simp only [Option.some_bind, Option.bind_eq_bind]
    rw [List.length_replicate, trailingZeros_two_pow]
    unfold MultivariatePoly.new
    rw [hn]
    rw [if_pos (by simp)]
  · push_neg
    have he : (2:ℕ) ^ n % 2 = 0 := by
      rw [show n = (n - 1) + 1 from by omega, pow_succ]
      omega
    have hp : 0 < (2:ℕ) ^ n := Nat.pos_pow_of_pos _ (by omega)
    omega

lemma masked_coeffs_eq_append (c : List F) (n : ℕ) (hc : c.length = 2 ^ n) :
    (List.range (2 ^ (n + 1))).map (fun i => c.getD (i &&& (2 ^ n - 1)) 0) = c ++ c := by
  apply list_ext_getD
  · rw [List.length_map, List.length_range, List.length_append, hc, pow_succ]
    omega
  · intro i hi
    rw [List.length_map, List.length_range] at hi
    rw [getD_map_range _ _ _ hi, Nat.and_pow_two_sub_one_eq_mod]
    have hpow : 0 < (2:ℕ) ^ n := Nat.pos_pow_of_pos _ (by omega)
    have hi' : i < 2 ^ n + 2 ^ n := by
      rw [pow_succ] at hi
      omega
    by_cases h : i < 2 ^ n
    · rw [Nat.mod_eq_of_lt h, List.getD_append _ _ _ _ (by omega)]
    · rw [List.getD_append_right _ _ _ _ (by omega), hc]
      rw [Nat.mod_eq_sub_mod (by omega), Nat.mod_eq_of_lt (by omega)]


end BlowUpLemmas

/-- **C7** (amended) Blow-up evaluation independence with the corrected
coordinate positions: `blow_up_right` injects the new variable as the *low*
bit (new index `i` maps to `original[i >> k]`), so the extra coordinate is
the *leading* one: `blowUpRight(w,1).evaluate(q :: p) = w.evaluate(p)`;
`blow_up_left` keeps the low bits (`original[i & (2^n - 1)]`), so the extra
coordinate trails: `blowUpLeft(w,1).evaluate(p ++ [q]) = w.evaluate(p)`. -/
theorem C7_blow_up_amended {F : Type} [Field F] (w : MultivariatePoly F) (n : ℕ)
    (hn : w.num_vars = n) (hlen : w.coeffs.length = 2 ^ n) (h1 : 1 ≤ n)
    (p : List F) (hp : p.length = n) (q : F) :
    ∃ Q Q', w.blow_up_right 1 = some Q ∧ w.blow_up_left 1 = some Q' ∧
      Q.coeffs = (List.range (2 ^ (n + 1))).map (fun i => w.coeffs.getD (i >>> 1) 0) ∧
      Q'.coeffs = (List.range (2 ^ (n + 1))).map
        (fun i => w.coeffs.getD (i &&& (2 ^ n - 1)) 0) ∧
      Q.evaluate (q :: p) = w.evaluate p ∧
      Q'.evaluate (p ++ [q]) = w.evaluate p := by
  refine ⟨_, _, blow_up_right_eq w 1 n hn hlen h1, blow_up_left_eq w 1 n hn hlen h1,
    rfl, rfl, ?_, ?_⟩
  · unfold MultivariatePoly.evaluate
    rw [if_pos (by simp [hp]), if_pos (by rw [hp, hn])]
    apply congrArg
    have h := evalCore_double w.coeffs n hlen q p
    rw [show MultivariatePoly.mk w.coeffs n = w from by rw [← hn]] at h
    exact h
  · unfold MultivariatePoly.evaluate
    rw [if_pos (by simp [hp]), if_pos (by rw [hp, hn])]
    apply congrArg
    show (MultivariatePoly.mk ((List.range (2 ^ (n + 1))).map
      (fun i => w.coeffs.getD (i &&& (2 ^ n - 1)) 0)) (n + 1)).evaluateCore (p ++ [q]) = _
    rw [masked_coeffs_eq_append w.coeffs n hlen]
    rw [evalCore_split w.coeffs w.coeffs n hlen hlen]
    rw [evalCore_point_congr w.coeffs n (p ++ [q]) p
      (fun j hj => List.getD_append _ _ _ _ (by omega))]
    have hw : MultivariatePoly.mk w.coeffs n = w := by rw [← hn]
    rw [hw]
    ring

/-- Counterexample to C7 as stated: for `w = [0,1]` (one variable),
`blowUpRight(w,1)` evaluated at `[p..., q] = [0, 1]` gives 1, but
`w.evaluate([0]) = 0`. -/
theorem C7_blow_up_counterexample :
    (MultivariatePoly.mk ([0, 1] : List (ZMod 5)) 1).blow_up_right 1 =
      some (MultivariatePoly.mk [0, 0, 1, 1] 2) ∧
    (MultivariatePoly.mk ([0, 0, 1, 1] : List (ZMod 5)) 2).evaluate [0, 1] = some 1 ∧
    (MultivariatePoly.mk ([0, 1] : List (ZMod 5)) 1).evaluate [0] = some 0 := by
  refine ⟨?_, by decide, by decide⟩
  rw [blow_up_right_eq _ 1 1 rfl (by decide) (by omega)]
  decide


/-- Witness for the amended C7 on `w = [1,2]` over `ZMod 5`, `p = [4]`,
`q = 3`. -/
theorem C7_blow_up_amended_witness :
    (MultivariatePoly.mk ([1, 2] : List (ZMod 5)) 1).num_vars = 1 ∧
    (MultivariatePoly.mk ([1, 2] : List (ZMod 5)) 1).coeffs.length = 2 ^ 1 ∧
    (1:ℕ) ≤ 1 ∧ ([4] : List (ZMod 5)).length = 1 ∧
    (∃ Q Q', (MultivariatePoly.mk ([1, 2] : List (ZMod 5)) 1).blow_up_right 1 = some Q ∧
      (MultivariatePoly.mk ([1, 2] : List (ZMod 5)) 1).blow_up_left 1 = some Q' ∧
      Q.coeffs = (List.range (2 ^ (1 + 1))).map
        (fun i => ([1, 2] : List (ZMod 5)).getD (i >>> 1) 0) ∧
      Q'.coeffs = (List.range (2 ^ (1 + 1))).map
        (fun i => ([1, 2] : List (ZMod 5)).getD (i &&& (2 ^ 1 - 1)) 0) ∧
      Q.evaluate (3 :: [4]) = (MultivariatePoly.mk ([1, 2] : List (ZMod 5)) 1).evaluate [4] ∧
      Q'.evaluate ([4] ++ [3]) =
        (MultivariatePoly.mk ([1, 2] : List (ZMod 5)) 1).evaluate [4]) :=
  ⟨rfl, by decide, by omega, by decide,
    C7_blow_up_amended (MultivariatePoly.mk ([1, 2] : List (ZMod 5)) 1) 1 rfl
      (by decide) (by omega) [4] (by decide) 3⟩

section PeInsertLemmas
variable {F : Type} [Field F]

lemma getD_take (l : List F) (k i : ℕ) (h : i < k) :
    (l.take k).getD i 0 = l.getD i 0 := by
  rw [List.getD_eq_getElem?_getD, List.getD_eq_getElem?_getD, List.getElem?_take]
  rw [if_pos h]

lemma getD_drop (l : List F) (k i : ℕ) :
    (l.drop k).getD i 0 = l.getD (k + i) 0 := by
  rw [List.getD_eq_getElem?_getD, List.getD_eq_getElem?_getD, List.getElem?_drop]

lemma map_sum_add (l : List ℕ) (f g : ℕ → F) :
    (l.map (fun i => f i + g i)).sum = (l.map f).sum + (l.map g).sum := by
  induction l with
  | nil => simp
  | cons x xs ih =>
    simp only [List.map_cons, List.sum_cons, ih]
    ring

lemma block_lor (p b q : ℕ) (hq : q < 2 ^ p) :
    (b * 2 ^ (p + 1) + q) ||| 2 ^ p = b * 2 ^ (p + 1) + q + 2 ^ p := by
  apply lor_pow_eq_add
  rw [Nat.testBit_to_div_mod]
  simp only [decide_eq_false_iff_not]
  rw [show b * 2 ^ (p + 1) + q = q + (2 * b) * 2 ^ p from by rw [pow_succ]; ring,
    Nat.add_mul_div_right _ _ (Nat.pos_pow_of_pos _ (by omega)),
    Nat.div_eq_of_lt hq]
  omega

lemma peLoop_window_block (l : List F) (p : ℕ) (v : F) :
    ∀ (c r rest b : ℕ), r + c = 2 ^ p → 1 ≤ c →
    peLoop l p v (c + rest) (b * 2 ^ (p + 1) + r) =
      (List.range c).map (fun i => peEntry l p v (b * 2 ^ (p + 1) + r + i)) ++
        peLoop l p v rest ((b + 1) * 2 ^ (p + 1)) := by
  intro c
  induction c with
  | zero => omega
  | succ c ih =>
    intro r rest b hr _
    have hrlt : r < 2 ^ p := by omega
    rw [show c + 1 + rest = (c + rest) + 1 from by omega, peLoop]
    have hmod : (b * 2 ^ (p + 1) + r + 1) % 2 ^ p = (r + 1) % 2 ^ p := by
      rw [show b * 2 ^ (p + 1) + r + 1 = 2 ^ p * (2 * b) + (r + 1) from by rw [pow_succ]; ring,
        Nat.mul_add_mod]
    rcases Nat.eq_zero_or_pos c with rfl | hc
    · have hr1 : r + 1 = 2 ^ p := by omega
      rw [show nextJ p (b * 2 ^ (p + 1) + r) = (b + 1) * 2 ^ (p + 1) from by
        unfold nextJ
        rw [if_pos (by rw [hmod, hr1, Nat.mod_self])]
        rw [Nat.succ_mul, pow_succ]
        omega]
      rw [show List.range 1 = [0] from rfl]
      simp only [List.map_cons, List.map_nil, Nat.zero_add, List.nil_append,
        List.cons_append, Nat.add_zero]
      rw [show l.getD (b * 2 ^ (p + 1) + r ||| 2 ^ p) 0 =
          l.getD (b * 2 ^ (p + 1) + r + 2 ^ p) 0 from by rw [block_lor p b r hrlt]]
      rfl
    · have hr1 : r + 1 < 2 ^ p := by omega
      rw [show nextJ p (b * 2 ^ (p + 1) + r) = b * 2 ^ (p + 1) + (r + 1) from by
        unfold nextJ
        rw [if_neg (by rw [hmod, Nat.mod_eq_of_lt hr1]; omega)]
        omega]
      rw [ih (r + 1) rest b (by omega) (by omega)]
      rw [List.range_succ_eq_map, List.map_cons, List.map_map, List.cons_append]
      congr 1
      · rw [Nat.add_zero]
        rw [show l.getD (b * 2 ^ (p + 1) + r ||| 2 ^ p) 0 =
            l.getD (b * 2 ^ (p + 1) + r + 2 ^ p) 0 from by rw [block_lor p b r hrlt]]
        rfl
      · congr 1
        apply List.map_congr_left
        intro i _
        simp only [Function.comp_apply]
        congr 1
        omega

lemma peLoop_run (l : List F) (p : ℕ) (v : F) :
    ∀ (m b : ℕ),
    peLoop l p v (m * 2 ^ p) (b * 2 ^ (p + 1)) =
      (List.range (m * 2 ^ p)).map (fun i =>
        peEntry l p v (b * 2 ^ (p + 1) + (i / 2 ^ p) * 2 ^ (p + 1) + i % 2 ^ p)) := by
  intro m
  induction m with
  | zero =>
    intro b
    rw [Nat.zero_mul]
    rfl
  | succ m ih =>
    intro b
    have hpow : 0 < (2:ℕ) ^ p := Nat.pos_pow_of_pos _ (by omega)
    rw [show (m + 1) * 2 ^ p = 2 ^ p + m * 2 ^ p from by ring]
    rw [show b * 2 ^ (p + 1) = b * 2 ^ (p + 1) + 0 from by omega]
    rw [peLoop_window_block l p v (2 ^ p) 0 (m * 2 ^ p) b (by omega) (by omega)]
    rw [ih (b + 1)]
    rw [List.range_add, List.map_append]
    congr 1
    · apply List.map_congr_left
      intro i hi
      simp only [List.mem_range] at hi
      congr 1
      rw [Nat.div_eq_of_lt hi, Nat.mod_eq_of_lt hi]
      omega
    · rw [List.map_map]
      apply List.map_congr_left
      intro i _
      simp only [Function.comp_apply]
      congr 1
      have hdiv : (2 ^ p + i) / 2 ^ p = 1 + i / 2 ^ p := by
        rw [Nat.add_comm, Nat.add_div_right _ hpow]
        omega
      have hmod : (2 ^ p + i) % 2 ^ p = i % 2 ^ p := by
        rw [Nat.add_comm, Nat.add_mod_right]
      rw [hdiv, hmod, Nat.succ_mul, Nat.add_mul, Nat.one_mul]
      omega

lemma pe_general (l : List F) (n j : ℕ) (v : F) (hl : l.length = 2 ^ (n + 1)) (hj : j ≤ n) :
    MultivariatePoly.partial_evaluate l j v =
      (List.range (2 ^ n)).map (fun i =>
        peEntry l (n - j) v ((i / 2 ^ (n - j)) * 2 ^ (n - j + 1) + i % 2 ^ (n - j))) := by
  unfold MultivariatePoly.partial_evaluate
  rw [hl, log2_two_pow]
  rw [show n + 1 - 1 - j = n - j from by omega]
  rw [show (2:ℕ) ^ (n + 1) / 2 = 2 ^ n from by rw [pow_succ]; omega]
  have hrun := peLoop_run l (n - j) v (2 ^ j) 0
  rw [Nat.zero_mul] at hrun
  rw [show (2:ℕ) ^ n = 2 ^ j * 2 ^ (n - j) from by rw [← pow_add]; congr 1; omega]
  rw [hrun]
  apply List.map_congr_left
  intro i _
  rw [Nat.zero_add]

lemma pe_length (l : List F) (j : ℕ) (v : F) :
    (MultivariatePoly.partial_evaluate l j v).length = l.length / 2 := by
  unfold MultivariatePoly.partial_evaluate
  rw [peLoop_length]

lemma pe_split (l : List F) (n j : ℕ) (v : F) (hl : l.length = 2 ^ (n + 1 + 1)) (hj : j ≤ n) :
    MultivariatePoly.partial_evaluate l (j + 1) v =
      MultivariatePoly.partial_evaluate (l.take (2 ^ (n + 1))) j v ++
      MultivariatePoly.partial_evaluate (l.drop (2 ^ (n + 1))) j v := by
  have hlt : (l.take (2 ^ (n + 1))).length = 2 ^ (n + 1) := by
    rw [List.length_take, hl, Nat.min_eq_left (Nat.pow_le_pow_right (by omega) (by omega))]
  have hld : (l.drop (2 ^ (n + 1))).length = 2 ^ (n + 1) := by
    rw [List.length_drop, hl, pow_succ]
    omega
  rw [pe_general l (n + 1) (j + 1) v hl (by omega),
    pe_general _ n j v hlt hj, pe_general _ n j v hld hj]
  rw [show n + 1 - (j + 1) = n - j from by omega]
  have hpow : 0 < (2:ℕ) ^ (n - j) := Nat.pos_pow_of_pos _ (by omega)
  conv_lhs => rw [show (2:ℕ) ^ (n + 1) = 2 ^ n + 2 ^ n from by rw [pow_succ]; omega]
  rw [List.range_add, List.map_append]
  congr 1
  · apply List.map_congr_left
    intro i hi
    simp only [List.mem_range] at hi
    have hdiv : i / 2 ^ (n - j) < 2 ^ (n - (n - j)) := by
      apply Nat.div_lt_of_lt_mul
      first
      | (rw [show (2:ℕ) ^ (n - j) * 2 ^ (n - (n - j)) = 2 ^ n from by
            rw [← pow_add]
            congr 1
            omega]
         exact hi)
      | (rw [show (2:ℕ) ^ (n - (n - j)) * 2 ^ (n - j) = 2 ^ n from by
            rw [← pow_add]
            congr 1
            omega]
         exact hi)
    have hmod : i % 2 ^ (n - j) < 2 ^ (n - j) := Nat.mod_lt _ hpow
    have h2 : (i / 2 ^ (n - j)) * 2 ^ (n - j + 1) ≤
        (2 ^ (n - (n - j)) - 1) * 2 ^ (n - j + 1) :=
      Nat.mul_le_mul_right _ (by omega)
    have hBB : (2:ℕ) ^ (n - j + 1) = 2 ^ (n - j) + 2 ^ (n - j) := by
      rw [pow_succ]
      omega
    have hsub : (2 ^ (n - (n - j)) - 1) * 2 ^ (n - j + 1) + 2 ^ (n - j + 1) =
        2 ^ (n - (n - j)) * 2 ^ (n - j + 1) := by
      rw [← Nat.succ_mul, Nat.succ_eq_add_one,
        Nat.sub_add_cancel (Nat.pos_pow_of_pos _ (by omega))]
    have hD : (2:ℕ) ^ (n + 1) = 2 ^ (n - (n - j)) * 2 ^ (n - j + 1) := by
      rw [← pow_add]
      congr 1
      omega
    have hq2 : (i / 2 ^ (n - j)) * 2 ^ (n - j + 1) + i % 2 ^ (n - j) + 2 ^ (n - j) <
        2 ^ (n + 1) := by
      omega
    unfold peEntry
    rw [getD_take l (2 ^ (n + 1)) _ hq2]
    rw [getD_take l (2 ^ (n + 1)) _ (by omega : i / 2 ^ (n - j) * 2 ^ (n - j + 1) +
      i % 2 ^ (n - j) < 2 ^ (n + 1))]
  · rw [List.map_map]
    apply List.map_congr_left
    intro i hi
    simp only [List.mem_range, Function.comp_apply] at hi ⊢
    have hsplit : (2:ℕ) ^ n = 2 ^ (n - (n - j)) * 2 ^ (n - j) := by
      rw [← pow_add]
      congr 1
      omega
    have hdiv : (2 ^ n + i) / 2 ^ (n - j) = 2 ^ (n - (n - j)) + i / 2 ^ (n - j) := by
      rw [hsplit, Nat.add_comm, Nat.add_mul_div_right _ _ hpow]
      omega
    have hmod2 : (2 ^ n + i) % 2 ^ (n - j) = i % 2 ^ (n - j) := by
      rw [hsplit, Nat.add_comm, Nat.add_mul_mod_self_right]
    rw [hdiv, hmod2, Nat.add_mul]
    rw [show (2:ℕ) ^ (n - (n - j)) * 2 ^ (n - j + 1) = 2 ^ (n + 1) from by
      rw [← pow_add]
      congr 1
      omega]
    unfold peEntry
    rw [getD_drop, getD_drop]
    rw [show (2:ℕ) ^ (n + 1) + i / 2 ^ (n - j) * 2 ^ (n - j + 1) + i % 2 ^ (n - j) =
      2 ^ (n + 1) + (i / 2 ^ (n - j) * 2 ^ (n - j + 1) + i % 2 ^ (n - j)) from by omega]
    rw [show (2:ℕ) ^ (n + 1) + (i / 2 ^ (n - j) * 2 ^ (n - j + 1) + i % 2 ^ (n - j)) +
        2 ^ (n - j) =
      2 ^ (n + 1) + (i / 2 ^ (n - j) * 2 ^ (n - j + 1) + i % 2 ^ (n - j) + 2 ^ (n - j))
      from by omega]

lemma pe_msb_evaluate (n : ℕ) (l : List F) (v : F) (rest : List F)
    (hl : l.length = 2 ^ (n + 1)) (hrest : rest.length = n) :
    (MultivariatePoly.mk (MultivariatePoly.partial_evaluate l 0 v) n).evaluateCore rest =
      (MultivariatePoly.mk l (n + 1)).evaluateCore (rest ++ [v]) := by
  have htake : (l.take (2 ^ n)).length = 2 ^ n := by
    rw [List.length_take, hl, Nat.min_eq_left (Nat.pow_le_pow_right (by omega) (by omega))]
  have hdrop : (l.drop (2 ^ n)).length = 2 ^ n := by
    rw [List.length_drop, hl, pow_succ]
    omega
  have hsplitL : (MultivariatePoly.mk l (n + 1)) =
      MultivariatePoly.mk (l.take (2 ^ n) ++ l.drop (2 ^ n)) (n + 1) := by
    rw [List.take_append_drop]
  rw [hsplitL, evalCore_split _ _ n htake hdrop]
  rw [show (rest ++ [v]).getD n 0 = v from by
    rw [List.getD_append_right _ _ _ _ (by omega)]
    rw [hrest, Nat.sub_self]
    rfl]
  rw [evalCore_point_congr (l.take (2 ^ n)) n (rest ++ [v]) rest
    (fun k hk => List.getD_append _ _ _ _ (by omega))]
  rw [evalCore_point_congr (l.drop (2 ^ n)) n (rest ++ [v]) rest
    (fun k hk => List.getD_append _ _ _ _ (by omega))]
  unfold MultivariatePoly.evaluateCore
  simp only
  rw [pe_length, hl, show (2:ℕ) ^ (n + 1) / 2 = 2 ^ n from by rw [pow_succ]; omega]
  rw [htake, hdrop]
  rw [← List.sum_map_mul_right, ← List.sum_map_mul_right, ← map_sum_add]
  apply congrArg
  apply List.map_congr_left
  intro i hi
  simp only [List.mem_range] at hi
  have hpe := pe_general l n 0 v hl (by omega)
  rw [Nat.sub_zero] at hpe
  rw [hpe, getD_map_range _ _ _ hi]
  rw [getD_take _ _ _ hi, getD_drop]
  unfold peEntry
  rw [Nat.div_eq_of_lt hi, Nat.mod_eq_of_lt hi, Nat.zero_mul, Nat.zero_add]
  ring

lemma insertIdx_getD_lt (r : List F) (p k : ℕ) (v : F) (hp : p ≤ r.length) (hk : k < p) :
    (r.insertIdx p v).getD k 0 = r.getD k 0 := by
  have hkr : k < r.length := by omega
  have hki : k < (r.insertIdx p v).length := by
    rw [List.length_insertIdx _ _ hp]
    omega
  rw [List.getD_eq_getElem _ _ hki, List.getD_eq_getElem _ _ hkr]
  exact List.getElem_insertIdx_of_lt r v p k hk hkr

lemma insertIdx_getD_self (r : List F) (p : ℕ) (v : F) (hp : p ≤ r.length) :
    (r.insertIdx p v).getD p 0 = v := by
  have hpi : p < (r.insertIdx p v).length := by
    rw [List.length_insertIdx _ _ hp]
    omega
  rw [List.getD_eq_getElem _ _ hpi]
  exact List.getElem_insertIdx_self r v p hp

lemma insertIdx_getD_gt (r : List F) (p k : ℕ) (v : F) (hpk : p + k < r.length) :
    (r.insertIdx p v).getD (p + k + 1) 0 = r.getD (p + k) 0 := by
  have hp : p ≤ r.length := by omega
  have hki : p + k + 1 < (r.insertIdx p v).length := by
    rw [List.length_insertIdx _ _ hp]
    omega
  rw [List.getD_eq_getElem _ _ hki, List.getD_eq_getElem _ _ hpk]
  exact List.getElem_insertIdx_add_succ r v p k hpk

lemma pe_evaluate_insert : ∀ (n : ℕ) (l : List F) (j : ℕ) (v : F) (rest : List F),
    l.length = 2 ^ (n + 1) → j ≤ n → rest.length = n →
    (MultivariatePoly.mk (MultivariatePoly.partial_evaluate l j v) n).evaluateCore rest =
      (MultivariatePoly.mk l (n + 1)).evaluateCore (rest.insertIdx (n - j) v) := by
  intro n
  induction n with
  | zero =>
    intro l j v rest hl hj hrest
    interval_cases j
    have hr : rest = [] := List.eq_nil_of_length_eq_zero hrest
    subst hr
    exact pe_msb_evaluate 0 l v [] hl rfl
  | succ n ih =>
    intro l j v rest hl hj hrest
    cases j with
    | zero =>
      rw [Nat.sub_zero]
      have hins : rest.insertIdx (n + 1) v = rest ++ [v] := by
        rw [← hrest]
        exact List.insertIdx_length_self rest v
      rw [hins]
      exact pe_msb_evaluate (n + 1) l v rest hl hrest
    | succ j' =>
      have hj' : j' ≤ n := by omega
      have htakeL : (l.take (2 ^ (n + 1))).length = 2 ^ (n + 1) := by
        rw [List.length_take, hl, Nat.min_eq_left (Nat.pow_le_pow_right (by omega) (by omega))]
      have hdropL : (l.drop (2 ^ (n + 1))).length = 2 ^ (n + 1) := by
        rw [List.length_drop, hl, pow_succ]
        omega
      have htakeRest : (rest.take n).length = n := by
        rw [List.length_take, hrest, Nat.min_eq_left (by omega)]
      have hA : (MultivariatePoly.partial_evaluate (l.take (2 ^ (n + 1))) j' v).length
          = 2 ^ n := by
        rw [pe_length, htakeL, pow_succ]
        omega
      have hB : (MultivariatePoly.partial_evaluate (l.drop (2 ^ (n + 1))) j' v).length
          = 2 ^ n := by
        rw [pe_length, hdropL, pow_succ]
        omega
      rw [pe_split l n j' v hl hj']
      rw [evalCore_split _ _ n hA hB rest]
      rw [evalCore_point_congr (MultivariatePoly.partial_evaluate (l.take (2 ^ (n + 1))) j' v)
        n rest (rest.take n) (fun k hk => (getD_take rest n k hk).symm)]
      rw [evalCore_point_congr (MultivariatePoly.partial_evaluate (l.drop (2 ^ (n + 1))) j' v)
        n rest (rest.take n) (fun k hk => (getD_take rest n k hk).symm)]
      rw [ih (l.take (2 ^ (n + 1))) j' v (rest.take n) htakeL hj' htakeRest,
        ih (l.drop (2 ^ (n + 1))) j' v (rest.take n) hdropL hj' htakeRest]
      rw [show n + 1 - (j' + 1) = n - j' from by omega]
      have hsplitL : MultivariatePoly.mk l (n + 1 + 1) =
          MultivariatePoly.mk (l.take (2 ^ (n + 1)) ++ l.drop (2 ^ (n + 1))) (n + 1 + 1) := by
        rw [List.take_append_drop]
      rw [hsplitL, evalCore_split _ _ (n + 1) htakeL hdropL _]
      have hpos : n - j' ≤ n := by omega
      have hgetTop : (rest.insertIdx (n - j') v).getD (n + 1) 0 = rest.getD n 0 := by
        rw [show n + 1 = (n - j') + j' + 1 from by omega,
          insertIdx_getD_gt rest (n - j') j' v (by omega),
          show n - j' + j' = n from by omega]
      have hcong : ∀ k, k < n + 1 →
          (rest.insertIdx (n - j') v).getD k 0 =
            ((rest.take n).insertIdx (n - j') v).getD k 0 := by
        intro k hk
        rcases Nat.lt_trichotomy k (n - j') with hlt | heq | hgt
        · rw [insertIdx_getD_lt rest (n - j') k v (by omega) hlt,
            insertIdx_getD_lt (rest.take n) (n - j') k v (by omega) hlt,
            getD_take rest n k (by omega)]
        · rw [heq, insertIdx_getD_self rest (n - j') v (by omega),
            insertIdx_getD_self (rest.take n) (n - j') v (by omega)]
        · rw [show k = (n - j') + (k - (n - j') - 1) + 1 from by omega,
            insertIdx_getD_gt rest (n - j') (k - (n - j') - 1) v (by omega),
            insertIdx_getD_gt (rest.take n) (n - j') (k - (n - j') - 1) v (by omega),
            getD_take rest n _ (by omega)]
      rw [evalCore_point_congr (l.take (2 ^ (n + 1))) (n + 1) _ _ hcong,
        evalCore_point_congr (l.drop (2 ^ (n + 1))) (n + 1) _ _ hcong]
      rw [hgetTop]


end PeInsertLemmas

/-- **C5** (amended) MLE evaluate/partial-evaluate consistency with the
corrected coordinate convention: `partial_evaluate(j, v)` fixes the variable
at index-bit position `num_vars - 1 - j` (big-endian `var_idx`), while
`evaluate` reads variable `j` from bit `j` (little-endian), so the fixed
value `v` re-enters the full evaluation point at position `n - j`:
`P.partial_evaluate(j,v).evaluate(rest) = P.evaluate(rest.insertIdx (n-j) v)`
for an `(n+1)`-variable `P`. -/
theorem C5_partial_evaluate_amended {F : Type} [Field F]
    (P : MultivariatePoly F) (n j : ℕ) (v : F) (rest : List F)
    (hn : P.num_vars = n + 1) (hlen : P.coeffs.length = 2 ^ (n + 1))
    (hj : j ≤ n) (hrest : rest.length = n) :
    (MultivariatePoly.mk (MultivariatePoly.partial_evaluate P.coeffs j v)
        (P.num_vars - 1)).evaluate rest =
      P.evaluate (rest.insertIdx (n - j) v) := by
  unfold MultivariatePoly.evaluate
  rw [if_pos (by simp [hrest, hn])]
  rw [if_pos (by
    rw [List.length_insertIdx _ _ (by rw [hrest]; omega), hrest, hn])]
  apply congrArg
  have h := pe_evaluate_insert n P.coeffs j v rest hlen hj hrest
  rw [show MultivariatePoly.mk P.coeffs (n + 1) = P from by rw [← hn]] at h
  rw [hn, Nat.add_sub_cancel]
  exact h

/-- Counterexample to C5 as stated: for `P = [0,1,0,0]` (two variables),
`P.partialEvaluate(0, 1).evaluate([0]) = 0` but the spec's right-hand side
`P.evaluate(point with coordinate 0 = 1) = P.evaluate([1, 0]) = 1`. -/
theorem C5_partial_evaluate_counterexample :
    (MultivariatePoly.mk
        (MultivariatePoly.partial_evaluate ([0, 1, 0, 0] : List (ZMod 5)) 0 1) 1).evaluate [0]
      = some 0 ∧
    (MultivariatePoly.mk ([0, 1, 0, 0] : List (ZMod 5)) 2).evaluate [1, 0] = some 1 := by
  constructor
  · have hl2 : Nat.log2 2 = 1 := by
      rw [Nat.log2, if_pos (by omega), Nat.log2, if_neg (by omega)]
    have h4 : (([0, 1, 0, 0] : List (ZMod 5)).length).log2 = 2 := by
      show Nat.log2 4 = 2
      rw [Nat.log2, if_pos (by omega)]
      show Nat.log2 2 + 1 = 2
      rw [hl2]
    have hl : MultivariatePoly.partial_evaluate ([0, 1, 0, 0] : List (ZMod 5)) 0 1 = [0, 0] := by
      unfold MultivariatePoly.partial_evaluate
      rw [h4]
      decide
    rw [hl]
    decide
  · decide

/-- Witness for the amended C5 on `P = [1,2,3,4]` over `ZMod 5`, `j = 1`,
`v = 2`, `rest = [3]`. -/
theorem C5_partial_evaluate_amended_witness :
    (MultivariatePoly.mk ([1, 2, 3, 4] : List (ZMod 5)) 2).num_vars = 1 + 1 ∧
    (MultivariatePoly.mk ([1, 2, 3, 4] : List (ZMod 5)) 2).coeffs.length = 2 ^ (1 + 1) ∧
    (1:ℕ) ≤ 1 ∧ ([3] : List (ZMod 5)).length = 1 ∧
    (MultivariatePoly.mk (MultivariatePoly.partial_evaluate
        ([1, 2, 3, 4] : List (ZMod 5)) 1 2)
      ((MultivariatePoly.mk ([1, 2, 3, 4] : List (ZMod 5)) 2).num_vars - 1)).evaluate [3] =
      (MultivariatePoly.mk ([1, 2, 3, 4] : List (ZMod 5)) 2).evaluate
        (([3] : List (ZMod 5)).insertIdx (1 - 1) 2) :=
  ⟨rfl, by decide, by omega, by decide,
    C5_partial_evaluate_amended (MultivariatePoly.mk ([1, 2, 3, 4] : List (ZMod 5)) 2)
      1 1 2 [3] rfl (by decide) (by omega) (by decide)⟩

end ZKGKR
